import Mathlib

/-!
Verification of the celestial-tts core subsystems against their
natural-language specification.

The development shallowly embeds three Python modules:

* `celestial_tts/model/local/model_cache.py` (`LocalModelCache`): a bounded
  LRU cache over an `OrderedDict`, modelled as an association list whose
  order is recency order (front = least recently used, back = most recently
  used).  The state additionally records every handle on which the code
  invoked `unload()`; the module under `src` never calls it, so no operation
  appends to that log.
* `celestial_tts/model/local/batcher.py` (`InferenceBatcher`): the per-bucket
  batch execution (`_execute_batch`) and a drain pass over the swapped queue
  (`_run_batch_loop` body), modelled as pure functions over request records
  whose one-shot futures are `Option` slots.
* `celestial_tts/database/model/auth_token.py` and
  `celestial_tts/database/controller/auth_token.py`: token encoding and
  decoding (fixed prefix, base64url, UTF-8, `split(":", 1)`, `uuid.UUID`
  parsing), validity, and `verify_token` over a list-modelled token table.
-/

namespace ModelCache

/-- `keys` of an association list (the `OrderedDict` key view). -/
def keys {K V : Type} (l : List (K × V)) : List K := l.map Prod.fst

/-- Association-list lookup: Python `model_type in self._cache` /
`self._cache[model_type]` (first entry with the given key). -/
def lookup {K V : Type} [DecidableEq K] (k : K) : List (K × V) → Option V
  | [] => none
  | (k0, v0) :: rest => if k0 = k then some v0 else lookup k rest

/-- Remove the first entry with the given key (the relocation part of
`OrderedDict.move_to_end` / `pop`). -/
def eraseKey {K V : Type} [DecidableEq K] (k : K) : List (K × V) → List (K × V)
  | [] => []
  | (k0, v0) :: rest => if k0 = k then rest else (k0, v0) :: eraseKey k rest

/-- State of a `LocalModelCache`.  `cache` is the `OrderedDict` in recency
order (head = least recently used).  `unloadCalls` logs every handle on which
`unload()` has been invoked; the source never invokes it, so the translated
operations never extend this log. -/
structure CacheState (K V : Type) where
  maxLoadedModels : Nat
  cache : List (K × V)
  unloadCalls : List V
deriving DecidableEq, Repr

/-- A freshly constructed `LocalModelCache(max_loaded_models)`. -/
def CacheState.empty (K V : Type) (cap : Nat) : CacheState K V :=
  { maxLoadedModels := cap, cache := [], unloadCalls := [] }

/-- `LocalModelCache.get`: on a hit, `move_to_end` then return the stored
handle; on a miss return `None` with no state change. -/
def get {K V : Type} [DecidableEq K] (s : CacheState K V) (k : K) :
    Option V × CacheState K V :=
  match lookup k s.cache with
  | some v => (some v, { s with cache := eraseKey k s.cache ++ [(k, v)] })
  | none => (none, s)

/-- `LocalModelCache.put`.  On an existing key: `move_to_end` then assign the
new handle.  Otherwise, if `len(self._cache) >= self.max_loaded_models`,
`popitem(last=False)` drops the least-recently-used entry (no `unload` call),
then the new entry is appended.  `popitem` on an empty `OrderedDict` raises
`KeyError`, modelled as `none`. -/
def put {K V : Type} [DecidableEq K] (s : CacheState K V) (k : K) (v : V) :
    Option (CacheState K V) :=
  match lookup k s.cache with
  | some _ => some { s with cache := eraseKey k s.cache ++ [(k, v)] }
  | none =>
    if s.cache.length ≥ s.maxLoadedModels then
      match s.cache with
      | [] => none
      | _ :: rest => some { s with cache := rest ++ [(k, v)] }
    else
      some { s with cache := s.cache ++ [(k, v)] }

/-- `LocalModelCache.get_or_put` with the loader's result passed as a value
(the loader is pure in this model). -/
def getOrPut {K V : Type} [DecidableEq K] (s : CacheState K V) (k : K) (v : V) :
    Option (CacheState K V) :=
  match get s k with
  | (some _, s1) => some s1
  | (none, s1) => put s1 k v

/-- `LocalModelCache.remove`: `self._cache.pop(model_type, None)`; the removed
handle is returned to the caller, not unloaded. -/
def remove {K V : Type} [DecidableEq K] (s : CacheState K V) (k : K) :
    Option V × CacheState K V :=
  (lookup k s.cache, { s with cache := eraseKey k s.cache })

/-- `LocalModelCache.clear`: `self._cache.clear()`; no unload calls. -/
def clear {K V : Type} (s : CacheState K V) : CacheState K V :=
  { s with cache := [] }

/-- One public cache operation, for reasoning about operation sequences. -/
inductive CacheOp (K V : Type) where
  | get (k : K)
  | getOrPut (k : K) (v : V)
  | put (k : K) (v : V)
  | remove (k : K)
  | clear
deriving DecidableEq, Repr

/-- Apply one operation; `none` models an uncaught `KeyError` from
`popitem` on an empty `OrderedDict` (only reachable with capacity 0). -/
def step {K V : Type} [DecidableEq K] (s : CacheState K V) :
    CacheOp K V → Option (CacheState K V)
  | .get k => some (get s k).2
  | .getOrPut k v => getOrPut s k v
  | .put k v => put s k v
  | .remove k => some (remove s k).2
  | .clear => some (clear s)

/-- Run a sequence of cache operations. -/
def runOps {K V : Type} [DecidableEq K] (s : CacheState K V) :
    List (CacheOp K V) → Option (CacheState K V)
  | [] => some s
  | op :: rest =>
    match step s op with
    | some s1 => runOps s1 rest
    | none => none

end ModelCache

namespace ModelCache

theorem lookup_eq_none_iff {K V : Type} [DecidableEq K] (k : K) (l : List (K × V)) :
    lookup k l = none ↔ k ∉ keys l := by
  induction l with
  | nil => simp [lookup, keys]
  | cons hd tl ih =>
    obtain ⟨k0, v0⟩ := hd
    by_cases h : k0 = k
    · subst h; simp [lookup, keys]
    · simp [lookup, keys, h, ih, Ne.symm h]

theorem lookup_isSome_iff {K V : Type} [DecidableEq K] (k : K) (l : List (K × V)) :
    (lookup k l).isSome = true ↔ k ∈ keys l := by
  rw [Option.isSome_iff_ne_none, ne_eq, lookup_eq_none_iff, not_not]

theorem keys_cons {K V : Type} (k : K) (v : V) (l : List (K × V)) :
    keys ((k, v) :: l) = k :: keys l := rfl

theorem length_eraseKey {K V : Type} [DecidableEq K] {k : K} {l : List (K × V)}
    (h : (lookup k l).isSome = true) : (eraseKey k l).length + 1 = l.length := by
  induction l with
  | nil => simp [lookup] at h
  | cons hd tl ih =>
    obtain ⟨k0, v0⟩ := hd
    by_cases hk : k0 = k
    · simp [eraseKey, hk]
    · simp only [lookup, hk, if_false] at h
      simp [eraseKey, hk, ih h]

theorem lookup_eraseKey_ne {K V : Type} [DecidableEq K] {k' k : K} (l : List (K × V))
    (hne : k' ≠ k) : lookup k' (eraseKey k l) = lookup k' l := by
  induction l with
  | nil => simp [eraseKey]
  | cons hd tl ih =>
    obtain ⟨k0, v0⟩ := hd
    by_cases hk : k0 = k
    · subst hk
      have hne' : ¬ (k0 = k') := fun h => hne h.symm
      simp [eraseKey, lookup, hne']
    · simp only [eraseKey, hk, if_false, lookup]
      by_cases hk' : k0 = k'
      · simp [hk']
      · simp [hk', ih]

theorem mem_keys_eraseKey_iff {K V : Type} [DecidableEq K] {k' k : K} (l : List (K × V))
    (hne : k' ≠ k) : k' ∈ keys (eraseKey k l) ↔ k' ∈ keys l := by
  induction l with
  | nil => simp [eraseKey]
  | cons hd tl ih =>
    obtain ⟨k0, v0⟩ := hd
    by_cases hk : k0 = k
    · subst hk
      simp only [eraseKey, if_pos rfl, keys_cons, List.mem_cons]
      exact (or_iff_right hne).symm
    · simp only [eraseKey, hk, if_false, keys_cons, List.mem_cons]
      exact or_congr Iff.rfl ih

theorem keys_append {K V : Type} (l1 l2 : List (K × V)) :
    keys (l1 ++ l2) = keys l1 ++ keys l2 := by
  simp [keys]

theorem lookup_append_right {K V : Type} [DecidableEq K] {k : K} {l1 : List (K × V)}
    (l2 : List (K × V)) (h : k ∉ keys l1) : lookup k (l1 ++ l2) = lookup k l2 := by
  induction l1 with
  | nil => simp
  | cons hd tl ih =>
    obtain ⟨k0, v0⟩ := hd
    simp only [keys_cons, List.mem_cons, not_or] at h
    have hk0 : ¬ (k0 = k) := fun h' => h.1 h'.symm
    simp only [List.cons_append, lookup, hk0, if_false]
    exact ih h.2

theorem lookup_append_left {K V : Type} [DecidableEq K] {k : K} {l1 : List (K × V)}
    {v : V} (l2 : List (K × V)) (h : lookup k l1 = some v) :
    lookup k (l1 ++ l2) = some v := by
  induction l1 with
  | nil => simp [lookup] at h
  | cons hd tl ih =>
    obtain ⟨k0, v0⟩ := hd
    simp only [lookup] at h ⊢
    by_cases hk : k0 = k
    · simpa [hk] using h
    · simp only [hk, if_false] at h ⊢
      exact ih h

theorem length_eraseKey_le {K V : Type} [DecidableEq K] (k : K) (l : List (K × V)) :
    (eraseKey k l).length ≤ l.length := by
  induction l with
  | nil => simp [eraseKey]
  | cons hd tl ih =>
    obtain ⟨k0, v0⟩ := hd
    by_cases hk : k0 = k
    · simp [eraseKey, hk]
    · simp only [eraseKey, hk, if_false, List.length_cons]
      omega

theorem get_state {K V : Type} [DecidableEq K] (s : CacheState K V) (k : K) :
    ((get s k).2).cache.length = s.cache.length ∧
      ((get s k).2).maxLoadedModels = s.maxLoadedModels ∧
      ((get s k).2).unloadCalls = s.unloadCalls := by
  cases hmem : lookup k s.cache with
  | some v =>
    have hlen := length_eraseKey (k := k) (l := s.cache) (by simp [hmem])
    refine ⟨?_, by simp [get, hmem], by simp [get, hmem]⟩
    simp only [get, hmem, List.length_append, List.length_cons, List.length_nil]
    omega
  | none => simp [get, hmem]

theorem put_bound {K V : Type} [DecidableEq K] (s : CacheState K V) (k : K) (v : V)
    (hcap : 1 ≤ s.maxLoadedModels) (hinv : s.cache.length ≤ s.maxLoadedModels) :
    ∃ s1, put s k v = some s1 ∧ s1.cache.length ≤ s1.maxLoadedModels ∧
      s1.maxLoadedModels = s.maxLoadedModels ∧ s1.unloadCalls = s.unloadCalls := by
  obtain ⟨cap, cache, ul⟩ := s
  simp only at hcap hinv ⊢
  cases hmem : lookup k cache with
  | some w =>
    have hlen := length_eraseKey (k := k) (l := cache) (by simp [hmem])
    refine ⟨⟨cap, eraseKey k cache ++ [(k, v)], ul⟩, by simp [put, hmem], ?_, rfl, rfl⟩
    simp only [List.length_append, List.length_cons, List.length_nil]
    omega
  | none =>
    by_cases hfull : cache.length ≥ cap
    · cases cache with
      | nil =>
        exfalso
        simp only [List.length_nil, ge_iff_le, Nat.le_zero] at hfull
        omega
      | cons e rest =>
        have hfull2 : cap ≤ rest.length + 1 := by simpa using hfull
        refine ⟨⟨cap, rest ++ [(k, v)], ul⟩, by simp [put, hmem, hfull2], ?_, rfl, rfl⟩
        simp only [List.length_append, List.length_cons, List.length_nil] at hinv ⊢
        omega
    · refine ⟨⟨cap, cache ++ [(k, v)], ul⟩, by simp [put, hmem, hfull], ?_, rfl, rfl⟩
      simp only [List.length_append, List.length_cons, List.length_nil]
      omega

theorem step_bound {K V : Type} [DecidableEq K] (s : CacheState K V) (op : CacheOp K V)
    (hcap : 1 ≤ s.maxLoadedModels) (hinv : s.cache.length ≤ s.maxLoadedModels) :
    ∃ s1, step s op = some s1 ∧ s1.cache.length ≤ s1.maxLoadedModels ∧
      s1.maxLoadedModels = s.maxLoadedModels ∧ s1.unloadCalls = s.unloadCalls := by
  cases op with
  | get k =>
    obtain ⟨h1, h2, h3⟩ := get_state s k
    exact ⟨_, rfl, by rw [h1, h2]; exact hinv, h2, h3⟩
  | getOrPut k v =>
    cases hmem : lookup k s.cache with
    | some w =>
      obtain ⟨h1, h2, h3⟩ := get_state s k
      refine ⟨_, ?_, by rw [h1, h2]; exact hinv, h2, h3⟩
      simp [step, getOrPut, get, hmem]
    | none =>
      obtain ⟨s1, hput, hb, hm, hu⟩ := put_bound s k v hcap hinv
      exact ⟨s1, by simp [step, getOrPut, get, hmem, hput], hb, hm, hu⟩
  | put k v => exact put_bound s k v hcap hinv
  | remove k =>
    refine ⟨_, rfl, ?_, rfl, rfl⟩
    simp only [remove]
    exact le_trans (length_eraseKey_le k s.cache) hinv
  | clear => exact ⟨_, rfl, by simp [clear], rfl, rfl⟩

theorem runOps_bound {K V : Type} [DecidableEq K] (ops : List (CacheOp K V)) :
    ∀ s : CacheState K V, 1 ≤ s.maxLoadedModels → s.cache.length ≤ s.maxLoadedModels →
      ∃ s1, runOps s ops = some s1 ∧ s1.cache.length ≤ s1.maxLoadedModels ∧
        s1.maxLoadedModels = s.maxLoadedModels := by
  induction ops with
  | nil => exact fun s _ hinv => ⟨s, rfl, hinv, rfl⟩
  | cons op rest ih =>
    intro s hcap hinv
    obtain ⟨s1, hstep, hb, hm, _⟩ := step_bound s op hcap hinv
    obtain ⟨s2, hrun, hb2, hm2⟩ := ih s1 (hm ▸ hcap) hb
    exact ⟨s2, by simp [runOps, hstep, hrun], hb2, by rw [hm2, hm]⟩

theorem put_unloadCalls {K V : Type} [DecidableEq K] {s : CacheState K V} {k : K}
    {v : V} {s1 : CacheState K V} (h : put s k v = some s1) :
    s1.unloadCalls = s.unloadCalls := by
  cases hmem : lookup k s.cache with
  | some w =>
    simp only [put, hmem, Option.some.injEq] at h
    rw [← h]
  | none =>
    simp only [put, hmem] at h
    split at h
    · split at h
      · simp at h
      · simp only [Option.some.injEq] at h
        rw [← h]
    · simp only [Option.some.injEq] at h
      rw [← h]

theorem step_unloadCalls {K V : Type} [DecidableEq K] {s : CacheState K V}
    {op : CacheOp K V} {s1 : CacheState K V} (h : step s op = some s1) :
    s1.unloadCalls = s.unloadCalls := by
  cases op with
  | get k =>
    simp only [step, Option.some.injEq] at h
    rw [← h]
    exact (get_state s k).2.2
  | getOrPut k v =>
    simp only [step, getOrPut] at h
    cases hmem : lookup k s.cache with
    | some w =>
      rw [show get s k = (some w, { s with cache := eraseKey k s.cache ++ [(k, w)] })
          from by simp [get, hmem]] at h
      cases h
      rfl
    | none =>
      rw [show get s k = (none, s) from by simp [get, hmem]] at h
      exact put_unloadCalls h
  | put k v => exact put_unloadCalls h
  | remove k =>
    simp only [step, remove, Option.some.injEq] at h
    rw [← h]
  | clear =>
    simp only [step, clear, Option.some.injEq] at h
    rw [← h]

theorem runOps_unloadCalls {K V : Type} [DecidableEq K] (ops : List (CacheOp K V)) :
    ∀ {s s1 : CacheState K V}, runOps s ops = some s1 →
      s1.unloadCalls = s.unloadCalls := by
  induction ops with
  | nil =>
    intro s s1 h
    cases h
    rfl
  | cons op rest ih =>
    intro s s1 h
    unfold runOps at h
    cases hstep : step s op with
    | none => rw [hstep] at h; cases h
    | some s2 =>
      rw [hstep] at h
      rw [ih h, step_unloadCalls hstep]

theorem lookup_append_singleton_ne {K V : Type} [DecidableEq K] {k' k : K} {v : V}
    (l : List (K × V)) (hne : k' ≠ k) :
    lookup k' (l ++ [(k, v)]) = lookup k' l := by
  cases h : lookup k' l with
  | some u => exact lookup_append_left _ h
  | none =>
    rw [lookup_append_right _ ((lookup_eq_none_iff _ _).mp h)]
    have hne2 : ¬ (k = k') := fun hh => hne hh.symm
    simp [lookup, hne2]

theorem eraseKey_sublist {K V : Type} [DecidableEq K] (k : K) (l : List (K × V)) :
    (eraseKey k l).Sublist l := by
  induction l with
  | nil => simp [eraseKey]
  | cons hd tl ih =>
    obtain ⟨k0, v0⟩ := hd
    by_cases hk : k0 = k
    · subst hk
      simp only [eraseKey, if_pos rfl]
      exact List.sublist_cons_self (k0, v0) tl
    · simpa [eraseKey, hk] using ih.cons₂ (k0, v0)

theorem keys_zip {K V : Type} (ks : List K) (vs : List V)
    (hlen : ks.length = vs.length) : keys (ks.zip vs) = ks := by
  exact List.map_fst_zip ks vs (le_of_eq hlen)

theorem not_mem_keys_eraseKey_self {K V : Type} [DecidableEq K] {k : K}
    {l : List (K × V)} (hnd : (keys l).Nodup) : k ∉ keys (eraseKey k l) := by
  induction l with
  | nil => simp [eraseKey, keys]
  | cons hd tl ih =>
    obtain ⟨k0, v0⟩ := hd
    rw [keys_cons] at hnd
    by_cases hk : k0 = k
    · subst hk
      simpa [eraseKey] using fun hmem => (List.nodup_cons.mp hnd).1 hmem
    · simp only [eraseKey, hk, if_false, keys_cons, List.mem_cons, not_or]
      exact ⟨fun h => hk h.symm, ih (List.nodup_cons.mp hnd).2⟩

theorem runOps_append {K V : Type} [DecidableEq K] (l1 l2 : List (CacheOp K V)) :
    ∀ s : CacheState K V,
      runOps s (l1 ++ l2) = (runOps s l1).bind (fun s1 => runOps s1 l2) := by
  induction l1 with
  | nil => intro s; simp [runOps]
  | cons op rest ih =>
    intro s
    simp only [List.cons_append, runOps]
    cases hstep : step s op with
    | none => simp
    | some s1 => simpa using ih s1

theorem runOps_fresh_puts {K V : Type} [DecidableEq K] :
    ∀ (ks : List K) (vs : List V) (s : CacheState K V),
      ks.length = vs.length → ks.Nodup →
      (∀ k ∈ ks, k ∉ keys s.cache) →
      s.cache.length + ks.length ≤ s.maxLoadedModels →
      runOps s (List.zipWith CacheOp.put ks vs) =
        some { s with cache := s.cache ++ ks.zip vs } := by
  intro ks
  induction ks with
  | nil => intro vs s _ _ _ _; simp [runOps]
  | cons k ktl ih =>
    intro vs s hlen hnd hfresh hcap
    cases vs with
    | nil => simp at hlen
    | cons v vtl =>
      have hk : k ∉ keys s.cache := hfresh k (by simp)
      have hmem : lookup k s.cache = none := (lookup_eq_none_iff k s.cache).mpr hk
      have hnotfull : ¬ (s.cache.length ≥ s.maxLoadedModels) := by
        simp only [List.length_cons] at hcap
        omega
      have hstep : step s (CacheOp.put k v) =
          some { s with cache := s.cache ++ [(k, v)] } := by
        simp [step, put, hmem, hnotfull]
      have hrest := ih vtl { s with cache := s.cache ++ [(k, v)] }
        (by simpa using hlen) (List.nodup_cons.mp hnd).2
        (by
          intro k2 hk2
          rw [keys_append, List.mem_append]
          rintro (h2 | h2)
          · exact hfresh k2 (List.mem_cons_of_mem k hk2) h2
          · have : k2 = k := by simpa [keys] using h2
            exact (List.nodup_cons.mp hnd).1 (this ▸ hk2))
        (by simp only [List.length_append, List.length_cons, List.length_nil] at hcap ⊢; omega)
      simp only [List.zipWith_cons_cons, runOps, hstep, hrest]
      simp [List.append_assoc]

theorem keys_cons_pair {K V : Type} (p : K × V) (l : List (K × V)) :
    keys (p :: l) = p.1 :: keys l := rfl

theorem put_evict_head {K V : Type} [DecidableEq K] (s : CacheState K V) (k : K)
    (v : V) (hmem : lookup k s.cache = none)
    (hfull : s.cache.length ≥ s.maxLoadedModels)
    (e : K × V) (rest : List (K × V)) (hc : s.cache = e :: rest) :
    put s k v = some { s with cache := rest ++ [(k, v)] } := by
  obtain ⟨cap, cache, ul⟩ := s
  simp only at hc
  subst hc
  simp only at hmem hfull
  have hfull2 : cap ≤ rest.length + 1 := by simpa using hfull
  simp [put, hmem, hfull2]

/-- C3: for every cache constructed with capacity at least 1 and every finite
sequence of `get`, `get_or_put`, `put`, `remove` and `clear` operations, the
sequence runs without error and the number of cached entries afterwards never
exceeds the configured capacity. -/
theorem cache_size_le_capacity {K V : Type} [DecidableEq K] (cap : Nat)
    (hcap : 1 ≤ cap) (ops : List (CacheOp K V)) :
    ∃ s1, runOps (CacheState.empty K V cap) ops = some s1 ∧
      s1.cache.length ≤ cap := by
  obtain ⟨s1, hrun, hb, hm⟩ := runOps_bound ops (CacheState.empty K V cap) hcap
    (by simp [CacheState.empty])
  exact ⟨s1, hrun, by rw [← show s1.maxLoadedModels = cap from hm]; exact hb⟩

/-- Witness for `cache_size_le_capacity` at capacity 1 and a concrete
operation sequence exercising all five operations. -/
theorem cache_size_le_capacity_witness :
    1 ≤ 1 ∧ ∃ s1, runOps (CacheState.empty Nat Nat 1)
      [CacheOp.put 0 5, CacheOp.getOrPut 1 6, CacheOp.get 0, CacheOp.remove 1,
        CacheOp.clear] = some s1 ∧ s1.cache.length ≤ 1 :=
  ⟨by decide, cache_size_le_capacity 1 (by decide) _⟩

/-- C4 counterexample: the claim that every removal path invokes the evicted
or removed handle's teardown (`unload`) before returning is false.  A `put`
into a full capacity-1 cache evicts the entry `(0, 10)` — handle `10` leaves
the cache — yet the unload log of the resulting state is empty, because
`LocalModelCache` never calls `unload` (the eviction site only carries the
comment "Optionally: add cleanup logic here"). -/
theorem eviction_teardown_counterexample :
    ¬ ((∀ (s : CacheState Nat Nat) (k v : Nat) (s1 : CacheState Nat Nat),
          put s k v = some s1 →
          ∀ p ∈ s.cache, p.1 ∉ keys s1.cache → p.2 ∈ s1.unloadCalls) ∧
       (∀ (s : CacheState Nat Nat) (k : Nat), ∀ p ∈ s.cache,
          p.1 ∉ keys ((remove s k).2).cache → p.2 ∈ ((remove s k).2).unloadCalls) ∧
       (∀ (s : CacheState Nat Nat), ∀ p ∈ s.cache, p.2 ∈ (clear s).unloadCalls)) := by
  intro h
  have h1 := h.1 { maxLoadedModels := 1, cache := [(0, 10)], unloadCalls := [] } 1 11
    { maxLoadedModels := 1, cache := [(1, 11)], unloadCalls := [] } (by decide)
    (0, 10) (by decide) (by decide)
  simp at h1

/-- C4 amended: no removal path invokes teardown at all — `put` (including
an eviction), `remove` and `clear` drop handles without ever calling
`unload`; after any operation sequence from a fresh cache the unload log is
empty. -/
theorem eviction_no_teardown {K V : Type} [DecidableEq K] (cap : Nat)
    (ops : List (CacheOp K V)) (s1 : CacheState K V)
    (h : runOps (CacheState.empty K V cap) ops = some s1) :
    s1.unloadCalls = [] :=
  runOps_unloadCalls ops h

/-- Witness for `eviction_no_teardown` on a sequence that evicts, removes and
clears. -/
theorem eviction_no_teardown_witness :
    runOps (CacheState.empty Nat Nat 1)
      [CacheOp.put 0 10, CacheOp.put 1 11, CacheOp.remove 1, CacheOp.put 2 12,
        CacheOp.clear] =
      some { maxLoadedModels := 1, cache := [], unloadCalls := [] } ∧
    ({ maxLoadedModels := 1, cache := [], unloadCalls := [] } :
      CacheState Nat Nat).unloadCalls = [] :=
  ⟨by decide,
    eviction_no_teardown 1
      [CacheOp.put 0 10, CacheOp.put 1 11, CacheOp.remove 1, CacheOp.put 2 12,
        CacheOp.clear]
      { maxLoadedModels := 1, cache := [], unloadCalls := [] } (by decide)⟩

/-- C10: `put` on an already-resident identifier replaces only that entry's
handle and moves it to most-recently-used position: the cache size is
unchanged, no entry is evicted (every resident key stays resident), every
other key's handle is unchanged, and the refreshed entry sits at the
most-recently-used end.  The `Nodup` hypothesis is the `OrderedDict` key
uniqueness invariant. -/
theorem put_resident_frame {K V : Type} [DecidableEq K] (s : CacheState K V)
    (k : K) (v w : V) (hmem : lookup k s.cache = some w)
    (hnd : (keys s.cache).Nodup) :
    ∃ s1, put s k v = some s1 ∧
      s1.cache = eraseKey k s.cache ++ [(k, v)] ∧
      s1.cache.length = s.cache.length ∧
      lookup k s1.cache = some v ∧
      (∀ k2, k2 ≠ k → lookup k2 s1.cache = lookup k2 s.cache) ∧
      (∀ k2 ∈ keys s.cache, k2 ∈ keys s1.cache) ∧
      s1.cache.getLast? = some (k, v) ∧
      s1.maxLoadedModels = s.maxLoadedModels ∧
      s1.unloadCalls = s.unloadCalls := by
  have hlen := length_eraseKey (k := k) (l := s.cache) (by simp [hmem])
  refine ⟨{ s with cache := eraseKey k s.cache ++ [(k, v)] },
    by simp [put, hmem], rfl, ?_, ?_, ?_, ?_, ?_, rfl, rfl⟩
  · simp only [List.length_append, List.length_cons, List.length_nil]
    omega
  · have hknone : lookup k (eraseKey k s.cache) = none :=
      (lookup_eq_none_iff _ _).mpr (not_mem_keys_eraseKey_self hnd)
    rw [lookup_append_right _ ((lookup_eq_none_iff _ _).mp hknone)]
    simp [lookup]
  · intro k2 hk2
    rw [lookup_append_singleton_ne _ hk2]
    exact lookup_eraseKey_ne s.cache hk2
  · intro k2 hk2
    rw [keys_append]
    by_cases hk : k2 = k
    · subst hk
      simp [keys]
    · exact List.mem_append.mpr (Or.inl ((mem_keys_eraseKey_iff s.cache hk).mpr hk2))
  · simp

/-- Witness for `put_resident_frame` at a concrete two-entry cache. -/
theorem put_resident_frame_witness :
    lookup 0 [((0 : Nat), (5 : Nat)), (1, 6)] = some 5 ∧
    (keys [((0 : Nat), (5 : Nat)), (1, 6)]).Nodup ∧
    (∃ s1, put { maxLoadedModels := 2, cache := [(0, 5), (1, 6)], unloadCalls := [] } 0 7 = some s1 ∧
      s1.cache = eraseKey 0 [((0 : Nat), (5 : Nat)), (1, 6)] ++ [(0, 7)] ∧
      s1.cache.length = [((0 : Nat), (5 : Nat)), (1, 6)].length ∧
      lookup 0 s1.cache = some 7 ∧
      (∀ k2, k2 ≠ 0 → lookup k2 s1.cache = lookup k2 [((0 : Nat), (5 : Nat)), (1, 6)]) ∧
      (∀ k2 ∈ keys [((0 : Nat), (5 : Nat)), (1, 6)], k2 ∈ keys s1.cache) ∧
      s1.cache.getLast? = some (0, 7) ∧
      s1.maxLoadedModels = 2 ∧
      s1.unloadCalls = []) :=
  ⟨by decide, by decide,
    put_resident_frame { maxLoadedModels := 2, cache := [(0, 5), (1, 6)], unloadCalls := [] }
      0 7 5 (by decide) (by decide)⟩

/-- C2 counterexample: at capacity N = 1 the second half of the claim fails.
After `put 0`, a `get 0` refreshes the only entry, yet the next insertion
must evict it — entry `0` does not survive, contradicting "A survives and the
next-least-recently-used entry is evicted instead". -/
theorem lru_refresh_counterexample_cap1 :
    runOps (CacheState.empty Nat Nat 1)
      [CacheOp.put 0 10, CacheOp.get 0, CacheOp.put 1 11] =
      some { maxLoadedModels := 1, cache := [(1, 11)], unloadCalls := [] } ∧
    (0 : Nat) ∉ keys [((1 : Nat), (11 : Nat))] := by
  decide

/-- C2 amended: eviction is pure LRU with `get`/`put` refreshing recency.
Part 1 (any capacity N ≥ 1): inserting N + 1 distinct identifiers into a
fresh cache with no intervening `get` leaves exactly the later N identifiers
resident in insertion order; the first-inserted identifier is evicted.
Part 2 (amended to N ≥ 2, since at N = 1 the refreshed entry itself is the
only eviction candidate): if a resident identifier A is `get`-refreshed
before the (N+1)-th insertion, A survives that insertion and the head of the
refreshed order — the next-least-recently-used entry — is evicted instead. -/
theorem lru_eviction_order {K V : Type} [DecidableEq K] (N : Nat) (ks : List K)
    (vs : List V) (klast : K) (vlast : V) (hN : 1 ≤ N) (hlen : ks.length = N)
    (hvlen : vs.length = N) (hnd : (ks ++ [klast]).Nodup) :
    (∃ s1, runOps (CacheState.empty K V N)
        (List.zipWith CacheOp.put (ks ++ [klast]) (vs ++ [vlast])) = some s1 ∧
      keys s1.cache = ks.tail ++ [klast] ∧
      ∀ kf, ks.head? = some kf → kf ∉ keys s1.cache) ∧
    (2 ≤ N → ∀ A ∈ ks, ∃ s2, runOps (CacheState.empty K V N)
        (List.zipWith CacheOp.put ks vs ++
          [CacheOp.get A, CacheOp.put klast vlast]) = some s2 ∧
      A ∈ keys s2.cache ∧
      ∀ p, (eraseKey A (ks.zip vs)).head? = some p → p.1 ∉ keys s2.cache) := by
  have hndks : ks.Nodup := (List.nodup_append.mp hnd).1
  have hklast : klast ∉ ks := fun h => ((List.nodup_append.mp hnd).2.2 h) (by simp)
  have hlen2 : ks.length = vs.length := by rw [hlen, hvlen]
  have hzlen : (ks.zip vs).length = N := by
    rw [List.length_zip, hlen, hvlen, Nat.min_self]
  have hfill : runOps (CacheState.empty K V N) (List.zipWith CacheOp.put ks vs) =
      some { maxLoadedModels := N, cache := ks.zip vs, unloadCalls := [] } := by
    have := runOps_fresh_puts ks vs (CacheState.empty K V N) hlen2 hndks
      (by intro k hk; simp [CacheState.empty, keys]) (by simp [CacheState.empty, hlen])
    simpa [CacheState.empty] using this
  have hklastzip : lookup klast (ks.zip vs) = none := by
    rw [lookup_eq_none_iff, keys_zip ks vs hlen2]; exact hklast
  constructor
  · rw [List.zipWith_append CacheOp.put ks [klast] vs [vlast] hlen2, runOps_append,
      hfill]
    cases hz : ks.zip vs with
    | nil =>
      rw [hz] at hzlen
      simp at hzlen
      omega
    | cons e ztail =>
      have hkeq : ks = e.1 :: keys ztail := by
        rw [← keys_zip ks vs hlen2, hz, keys_cons_pair]
      rw [hz] at hklastzip hzlen
      have hput := put_evict_head
        { maxLoadedModels := N, cache := e :: ztail, unloadCalls := ([] : List V) }
        klast vlast hklastzip (le_of_eq hzlen.symm) e ztail rfl
      refine ⟨{ maxLoadedModels := N
                cache := ztail ++ [(klast, vlast)]
                unloadCalls := [] }, ?_, ?_, ?_⟩
      · simp [Option.some_bind, runOps, step, hput]
      · rw [keys_append, hkeq]
        simp [keys]
      · intro kf hkf
        rw [hkeq] at hkf
        simp only [List.head?_cons, Option.some.injEq] at hkf
        subst hkf
        rw [keys_append]
        have hnd2 : (e.1 :: keys ztail).Nodup := hkeq ▸ hndks
        intro hmem
        rcases List.mem_append.mp hmem with h1 | h1
        · exact (List.nodup_cons.mp hnd2).1 h1
        · have : e.1 = klast := by simpa [keys] using h1
          exact hklast (this ▸ (hkeq ▸ List.mem_cons_self e.1 (keys ztail)))
  · intro hN2 A hA
    obtain ⟨w, hw⟩ := Option.isSome_iff_exists.mp (show (lookup A (ks.zip vs)).isSome = true by
      rw [lookup_isSome_iff, keys_zip ks vs hlen2]; exact hA)
    have hstepget : step
        { maxLoadedModels := N, cache := ks.zip vs, unloadCalls := ([] : List V) }
        (CacheOp.get A) =
        some { maxLoadedModels := N
               cache := eraseKey A (ks.zip vs) ++ [(A, w)]
               unloadCalls := [] } := by
      simp [step, get, hw]
    have helen : (eraseKey A (ks.zip vs)).length + 1 = N := by
      rw [length_eraseKey (by simp [hw]), hzlen]
    have hnodupz : (keys (ks.zip vs)).Nodup := by
      rw [keys_zip ks vs hlen2]; exact hndks
    have hAnot : A ∉ keys (eraseKey A (ks.zip vs)) := not_mem_keys_eraseKey_self hnodupz
    have hsubk : (keys (eraseKey A (ks.zip vs))).Sublist (keys (ks.zip vs)) :=
      (eraseKey_sublist A _).map Prod.fst
    have hklast2 : lookup klast (eraseKey A (ks.zip vs) ++ [(A, w)]) = none := by
      rw [lookup_eq_none_iff, keys_append]
      intro hmem
      rcases List.mem_append.mp hmem with h1 | h1
      · refine hklast ?_
        have := hsubk.subset h1
        rwa [keys_zip ks vs hlen2] at this
      · have : klast = A := by simpa [keys] using h1
        exact hklast (this ▸ hA)
    cases hek : eraseKey A (ks.zip vs) with
    | nil =>
      rw [hek] at helen
      simp at helen
      omega
    | cons p ptail =>
      have hfull2 : (eraseKey A (ks.zip vs) ++ [(A, w)]).length ≥ N := by
        simp only [List.length_append, List.length_cons, List.length_nil]
        omega
      have hput2 := put_evict_head
        { maxLoadedModels := N
          cache := eraseKey A (ks.zip vs) ++ [(A, w)]
          unloadCalls := ([] : List V) }
        klast vlast hklast2 hfull2 p (ptail ++ [(A, w)]) (by rw [hek]; simp)
      refine ⟨{ maxLoadedModels := N
                cache := (ptail ++ [(A, w)]) ++ [(klast, vlast)]
                unloadCalls := [] }, ?_, ?_, ?_⟩
      · rw [runOps_append, hfill]
        simp only [Option.some_bind, runOps, hstepget]
        simp [step, hput2]
      · rw [keys_append, keys_append]
        simp [keys]
      · intro q hq
        simp only [List.head?_cons, Option.some.injEq] at hq
        subst hq
        show p.1 ∉ keys ((ptail ++ [(A, w)]) ++ [(klast, vlast)])
        have hknd : (keys (eraseKey A (ks.zip vs))).Nodup := hnodupz.sublist hsubk
        rw [hek, keys_cons_pair] at hknd
        have hpA : A ≠ p.1 := by
          rw [hek, keys_cons_pair] at hAnot
          exact fun h => hAnot (h ▸ List.mem_cons_self p.1 (keys ptail))
        have hpks : p.1 ∈ ks := by
          have : p.1 ∈ keys (eraseKey A (ks.zip vs)) := by
            rw [hek, keys_cons_pair]
            exact List.mem_cons_self p.1 (keys ptail)
          have := hsubk.subset this
          rwa [keys_zip ks vs hlen2] at this
        rw [keys_append, keys_append]
        intro hmem
        rcases List.mem_append.mp hmem with h1 | h1
        · rcases List.mem_append.mp h1 with h2 | h2
          · exact (List.nodup_cons.mp hknd).1 h2
          · have : p.1 = A := by simpa [keys] using h2
            exact hpA this.symm
        · have : p.1 = klast := by simpa [keys] using h1
          exact hklast (this ▸ hpks)

/-- Witness for `lru_eviction_order` at capacity 2 with identifiers 0, 1 and
late insertion 2. -/
theorem lru_eviction_order_witness :
    1 ≤ 2 ∧ (([0, 1] : List Nat) ++ [2]).Nodup ∧
    ((∃ s1, runOps (CacheState.empty Nat Nat 2)
        (List.zipWith CacheOp.put (([0, 1] : List Nat) ++ [2])
          (([10, 11] : List Nat) ++ [12])) = some s1 ∧
      keys s1.cache = ([0, 1] : List Nat).tail ++ [2] ∧
      ∀ kf, ([0, 1] : List Nat).head? = some kf → kf ∉ keys s1.cache) ∧
    (2 ≤ 2 → ∀ A ∈ ([0, 1] : List Nat), ∃ s2,
      runOps (CacheState.empty Nat Nat 2)
        (List.zipWith CacheOp.put ([0, 1] : List Nat) ([10, 11] : List Nat) ++
          [CacheOp.get A, CacheOp.put 2 12]) = some s2 ∧
      A ∈ keys s2.cache ∧
      ∀ p, (eraseKey A (([0, 1] : List Nat).zip ([10, 11] : List Nat))).head? =
        some p → p.1 ∉ keys s2.cache)) :=
  ⟨by decide, by decide,
    lru_eviction_order 2 [0, 1] [10, 11] 2 12 (by decide) (by decide) (by decide)
      (by decide)⟩

end ModelCache

namespace Batcher

/-- A single caller's `_InferenceRequest`.  `texts` is the caller's item
list; `runBatch` the synchronous blocking callable, modelled as a pure
function returning `Except` (an exception or `(wavs, sample_rate)`);
`slot` is the `asyncio.Future` result state (`none` = pending).
`text_count` from `__post_init__` is `texts.length` (`textCount`). -/
structure Request (τ ω ε : Type) where
  texts : List τ
  runBatch : List τ → Except ε (List ω × Nat)
  slot : Option (Except ε (List ω × Nat))

/-- `self.text_count = len(self.texts)`. -/
def textCount {τ ω ε : Type} (r : Request τ ω ε) : Nat := r.texts.length

/-- Python list slice `l[s:e]` for nonnegative bounds (clamps like Python). -/
def pySlice {ω : Type} (l : List ω) (s e : Nat) : List ω :=
  (l.drop s).take (e - s)

/-- The combined-texts / slices accumulation loop at the top of
`_execute_batch`. -/
def combineAux {τ ω ε : Type} :
    List (Request τ ω ε) → List τ → List (Nat × Nat) → List τ × List (Nat × Nat)
  | [], combined, slices => (combined, slices)
  | r :: rest, combined, slices =>
    combineAux rest (combined ++ r.texts)
      (slices ++ [(combined.length, combined.length + textCount r)])

/-- `future.set_result` / `set_exception` guarded by `future.done()`:
returns the updated request together with the number of writes performed. -/
def setOutcome {τ ω ε : Type} (r : Request τ ω ε)
    (res : Except ε (List ω × Nat)) : Request τ ω ε × Nat :=
  match r.slot with
  | none => ({ r with slot := some res }, 1)
  | some _ => (r, 0)

/-- `_execute_batch`: combine all requests' texts, invoke the head request's
`run_batch` once on the combined list, then on success resolve each request
with its `wavs[start:end]` slice and the shared sample rate, and on failure
resolve every request with the same exception.  The returned triple is
(updated requests, list of argument lists passed to the blocking function,
per-request write counts).  `requests[0]` on an empty list raises
`IndexError`, modelled as `none`. -/
def executeBatch {τ ω ε : Type} (reqs : List (Request τ ω ε)) :
    Option (List (Request τ ω ε) × List (List τ) × List Nat) :=
  match reqs with
  | [] => none
  | r0 :: _ =>
    let cs := combineAux reqs [] []
    match r0.runBatch cs.1 with
    | .ok (wavs, sr) =>
      let upd := List.zipWith
        (fun r sl => setOutcome r (.ok (pySlice wavs sl.1 sl.2, sr))) reqs cs.2
      some (upd.map Prod.fst, [cs.1], upd.map Prod.snd)
    | .error e =>
      let upd := reqs.map (fun r => setOutcome r (.error e))
      some (upd.map Prod.fst, [cs.1], upd.map Prod.snd)

/-- One drain pass of `_run_batch_loop`: the swapped-out queue is the list of
(batch key, bucket) pairs in insertion order; each bucket is executed in
order by `_execute_batch`, and a bucket's failure is confined to its own
requests (the `try/except` is inside `_execute_batch`). -/
def drainPass {κ τ ω ε : Type} :
    List (κ × List (Request τ ω ε)) →
      Option (List (κ × List (Request τ ω ε)) × List (List τ))
  | [] => some ([], [])
  | (key, reqs) :: rest =>
    match executeBatch reqs with
    | none => none
    | some (reqs1, calls, _) =>
      match drainPass rest with
      | none => none
      | some (rest1, calls1) => some ((key, reqs1) :: rest1, calls ++ calls1)

/-- Start offset of request `i` within the combined batch: the total item
count of the requests before it in submission order. -/
def startOffset {τ ω ε : Type} (reqs : List (Request τ ω ε)) (i : Nat) : Nat :=
  ((reqs.take i).map textCount).sum

/-- Slices produced for a request list starting at a given base offset. -/
def slicesFrom {τ ω ε : Type} (base : Nat) :
    List (Request τ ω ε) → List (Nat × Nat)
  | [] => []
  | r :: rest => (base, base + textCount r) :: slicesFrom (base + textCount r) rest

end Batcher

namespace Batcher

theorem combineAux_spec {τ ω ε : Type} (reqs : List (Request τ ω ε)) :
    ∀ acc slices, combineAux reqs acc slices =
      (acc ++ (reqs.map Request.texts).flatten,
        slices ++ slicesFrom acc.length reqs) := by
  induction reqs with
  | nil => intro acc slices; simp [combineAux, slicesFrom]
  | cons r rest ih =>
    intro acc slices
    rw [combineAux, ih]
    simp [slicesFrom, textCount, List.append_assoc]

theorem slicesFrom_length {τ ω ε : Type} (reqs : List (Request τ ω ε)) :
    ∀ base, (slicesFrom base reqs).length = reqs.length := by
  induction reqs with
  | nil => intro base; simp [slicesFrom]
  | cons r rest ih => intro base; simp [slicesFrom, ih]

theorem slicesFrom_getElem {τ ω ε : Type} (reqs : List (Request τ ω ε)) :
    ∀ base i, i < reqs.length →
      ∃ r, reqs[i]? = some r ∧
        (slicesFrom base reqs)[i]? =
          some (base + startOffset reqs i,
            base + startOffset reqs i + textCount r) := by
  induction reqs with
  | nil => intro base i hi; simp at hi
  | cons r0 rest ih =>
    intro base i hi
    cases i with
    | zero =>
      exact ⟨r0, by simp, by simp [slicesFrom, startOffset]⟩
    | succ j =>
      have hj : j < rest.length := by simpa using hi
      obtain ⟨r, hr, hsl⟩ := ih (base + textCount r0) j hj
      refine ⟨r, by simpa using hr, ?_⟩
      simp only [slicesFrom, List.getElem?_cons_succ, hsl, Option.some.injEq,
        Prod.mk.injEq]
      have hso : startOffset (r0 :: rest) (j + 1) =
          textCount r0 + startOffset rest j := by
        simp [startOffset, List.take_succ_cons]
      refine ⟨?_, ?_⟩ <;> omega

theorem getElem?_zipWith {α β γ : Type} (f : α → β → γ) :
    ∀ (as : List α) (bs : List β) (i : Nat) (a : α) (b : β),
      as[i]? = some a → bs[i]? = some b →
      (List.zipWith f as bs)[i]? = some (f a b) := by
  intro as
  induction as with
  | nil => intro bs i a b ha; simp at ha
  | cons a0 atl ih =>
    intro bs i a b ha hb
    cases bs with
    | nil => simp at hb
    | cons b0 btl =>
      cases i with
      | zero =>
        simp only [List.getElem?_cons_zero, Option.some.injEq] at ha hb
        simp [ha, hb]
      | succ j =>
        simp only [List.getElem?_cons_succ] at ha hb
        simpa using ih btl j a b ha hb

theorem zipWith_setOutcome_pending {τ ω ε α : Type}
    (f : α → Except ε (List ω × Nat)) :
    ∀ (reqs : List (Request τ ω ε)) (sls : List α),
      (∀ r ∈ reqs, r.slot = none) →
      (List.zipWith (fun r sl => setOutcome r (f sl)) reqs sls).map Prod.fst =
        List.zipWith (fun r sl => { r with slot := some (f sl) }) reqs sls ∧
      (List.zipWith (fun r sl => setOutcome r (f sl)) reqs sls).map Prod.snd =
        List.replicate (min reqs.length sls.length) 1 := by
  intro reqs
  induction reqs with
  | nil => intro sls _; simp
  | cons r rest ih =>
    intro sls hp
    cases sls with
    | nil => simp
    | cons sl stl =>
      have hr : setOutcome r (f sl) = ({ r with slot := some (f sl) }, 1) := by
        simp [setOutcome, hp r (by simp)]
      obtain ⟨ih1, ih2⟩ := ih stl (fun r2 h2 => hp r2 (List.mem_cons_of_mem r h2))
      refine ⟨?_, ?_⟩
      · simp [hr, ih1]
      · simp [hr, ih2, Nat.succ_min_succ, List.replicate_succ]

theorem map_setOutcome_pending {τ ω ε : Type} (e : ε) :
    ∀ (reqs : List (Request τ ω ε)), (∀ r ∈ reqs, r.slot = none) →
      (reqs.map (fun r => setOutcome r (.error e))).map Prod.fst =
        reqs.map (fun r => { r with slot := some (.error e) }) ∧
      (reqs.map (fun r => setOutcome r (.error e))).map Prod.snd =
        List.replicate reqs.length 1 := by
  intro reqs
  induction reqs with
  | nil => intro _; simp
  | cons r rest ih =>
    intro hp
    have hr : setOutcome r (Except.error e) =
        ({ r with slot := some (Except.error e) }, 1) := by
      simp [setOutcome, hp r (by simp)]
    obtain ⟨ih1, ih2⟩ := ih (fun r2 h2 => hp r2 (List.mem_cons_of_mem r h2))
    refine ⟨?_, ?_⟩
    · simp [hr, ih1]
    · simp [hr, ih2, List.replicate_succ]

theorem executeBatch_ok {τ ω ε : Type} (r0 : Request τ ω ε)
    (rest : List (Request τ ω ε)) (wavs : List ω) (sr : Nat)
    (hpending : ∀ r ∈ r0 :: rest, r.slot = none)
    (hrb : r0.runBatch (((r0 :: rest).map Request.texts).flatten) =
      Except.ok (wavs, sr)) :
    executeBatch (r0 :: rest) = some
      (List.zipWith (fun r sl =>
          { r with slot := some (Except.ok (pySlice wavs sl.1 sl.2, sr)) })
        (r0 :: rest) (slicesFrom 0 (r0 :: rest)),
       [((r0 :: rest).map Request.texts).flatten],
       List.replicate (r0 :: rest).length 1) := by
  obtain ⟨h1, h2⟩ := zipWith_setOutcome_pending
    (fun sl => Except.ok (pySlice wavs sl.1 sl.2, sr)) (r0 :: rest)
    (slicesFrom 0 (r0 :: rest)) hpending
  simp only [executeBatch, combineAux_spec, List.nil_append, List.length_nil,
    hrb, h1, h2, slicesFrom_length, Nat.min_self]

theorem executeBatch_err {τ ω ε : Type} (r0 : Request τ ω ε)
    (rest : List (Request τ ω ε)) (e : ε)
    (hpending : ∀ r ∈ r0 :: rest, r.slot = none)
    (hrb : r0.runBatch (((r0 :: rest).map Request.texts).flatten) =
      Except.error e) :
    executeBatch (r0 :: rest) = some
      ((r0 :: rest).map (fun r => { r with slot := some (Except.error e) }),
       [((r0 :: rest).map Request.texts).flatten],
       List.replicate (r0 :: rest).length 1) := by
  obtain ⟨h1, h2⟩ := map_setOutcome_pending e (r0 :: rest) hpending
  simp only [executeBatch, combineAux_spec, List.nil_append, List.length_nil,
    hrb, h1, h2]

theorem slot_ok_of_mem_zipWith {τ ω ε : Type} (wavs : List ω) (sr : Nat) :
    ∀ (reqs : List (Request τ ω ε)) (sls : List (Nat × Nat)) (x : Request τ ω ε),
      x ∈ List.zipWith (fun r sl =>
        { r with slot := some (Except.ok (pySlice wavs sl.1 sl.2, sr)) }) reqs sls →
      ∃ res, x.slot = some (Except.ok res) := by
  intro reqs
  induction reqs with
  | nil => intro sls x hx; simp at hx
  | cons r rtl ih =>
    intro sls x hx
    cases sls with
    | nil => simp at hx
    | cons sl stl =>
      rcases List.mem_cons.mp hx with h | h
      · exact ⟨_, by rw [h]⟩
      · exact ih stl x h

theorem slot_error_of_mem_map {τ ω ε : Type} (e : ε)
    (reqs : List (Request τ ω ε)) (x : Request τ ω ε)
    (hx : x ∈ reqs.map (fun r => { r with slot := some (Except.error e) })) :
    x.slot = some (Except.error e) := by
  obtain ⟨r, _, rfl⟩ := List.mem_map.mp hx
  rfl

theorem flatten_length_eq_sum_counts {τ ω ε : Type}
    (reqs : List (Request τ ω ε)) :
    ((reqs.map Request.texts).flatten).length = (reqs.map textCount).sum := by
  rw [List.length_flatten, List.map_map]
  rfl

/-- C1: K pending requests of one bucket drained in a single pass lead to
exactly one invocation of the blocking function (the call log is the single
combined list, the concatenation of the item lists in submission order,
whose length is the sum of the per-request item counts); on success each
request's slot receives exactly `wavs[start:start+count]` at its submission
offsets together with the shared sample rate. -/
theorem executeBatch_single_call {τ ω ε : Type} (r0 : Request τ ω ε)
    (rest : List (Request τ ω ε))
    (hpending : ∀ r ∈ r0 :: rest, r.slot = none) :
    ∃ upd counts,
      executeBatch (r0 :: rest) =
        some (upd, [((r0 :: rest).map Request.texts).flatten], counts) ∧
      (((r0 :: rest).map Request.texts).flatten).length =
        ((r0 :: rest).map textCount).sum ∧
      ∀ wavs sr,
        r0.runBatch (((r0 :: rest).map Request.texts).flatten) =
          Except.ok (wavs, sr) →
        ∀ i, i < (r0 :: rest).length →
          ∃ r r1, (r0 :: rest)[i]? = some r ∧ upd[i]? = some r1 ∧
            r1.slot = some (Except.ok
              (pySlice wavs (startOffset (r0 :: rest) i)
                (startOffset (r0 :: rest) i + textCount r), sr)) := by
  cases hrb : r0.runBatch (((r0 :: rest).map Request.texts).flatten) with
  | ok p =>
    obtain ⟨wavs0, sr0⟩ := p
    refine ⟨_, _, executeBatch_ok r0 rest wavs0 sr0 hpending hrb,
      flatten_length_eq_sum_counts _, ?_⟩
    intro wavs sr hok i hi
    obtain ⟨hw, hs⟩ : wavs0 = wavs ∧ sr0 = sr := by simpa using hok
    subst hw
    subst hs
    obtain ⟨r, hr, hsl⟩ := slicesFrom_getElem (r0 :: rest) 0 i hi
    refine ⟨r, _, hr, getElem?_zipWith _ _ _ i r _ hr hsl, ?_⟩
    simp
  | error e =>
    refine ⟨_, _, executeBatch_err r0 rest e hpending hrb,
      flatten_length_eq_sum_counts _, ?_⟩
    intro wavs sr hok i hi
    simp at hok

/-- C9: every pending request folded into an executing batch has its
one-shot slot written exactly once (the per-request write-count list is all
ones) and ends resolved — with its success slice or the bucket's propagated
failure. -/
theorem slots_written_once {τ ω ε : Type} (r0 : Request τ ω ε)
    (rest : List (Request τ ω ε))
    (hpending : ∀ r ∈ r0 :: rest, r.slot = none) :
    ∃ upd calls, executeBatch (r0 :: rest) =
        some (upd, calls, List.replicate (r0 :: rest).length 1) ∧
      upd.length = (r0 :: rest).length ∧
      ∀ r1 ∈ upd, (r1.slot).isSome = true := by
  cases hrb : r0.runBatch (((r0 :: rest).map Request.texts).flatten) with
  | ok p =>
    obtain ⟨wavs0, sr0⟩ := p
    refine ⟨_, _, executeBatch_ok r0 rest wavs0 sr0 hpending hrb, ?_, ?_⟩
    · simp [slicesFrom_length]
    · intro r1 h1
      obtain ⟨res, hres⟩ := slot_ok_of_mem_zipWith wavs0 sr0 (r0 :: rest) _ r1 h1
      simp [hres]
  | error e =>
    refine ⟨_, _, executeBatch_err r0 rest e hpending hrb, by simp, ?_⟩
    intro r1 h1
    simp [slot_error_of_mem_map e (r0 :: rest) r1 h1]

theorem executeBatch_outcomes {τ ω ε : Type} (r0 : Request τ ω ε)
    (rtl : List (Request τ ω ε))
    (hpending : ∀ r ∈ r0 :: rtl, r.slot = none) :
    ∃ out, executeBatch (r0 :: rtl) = some out ∧
      (∀ e, r0.runBatch (((r0 :: rtl).map Request.texts).flatten) =
          Except.error e → ∀ r1 ∈ out.1, r1.slot = some (Except.error e)) ∧
      (∀ wavs sr, r0.runBatch (((r0 :: rtl).map Request.texts).flatten) =
          Except.ok (wavs, sr) →
        ∀ r1 ∈ out.1, ∃ res, r1.slot = some (Except.ok res)) := by
  cases hrb : r0.runBatch (((r0 :: rtl).map Request.texts).flatten) with
  | ok p =>
    obtain ⟨wavs0, sr0⟩ := p
    refine ⟨_, executeBatch_ok r0 rtl wavs0 sr0 hpending hrb, ?_, ?_⟩
    · intro e he
      simp at he
    · intro wavs sr _ r1 h1
      exact slot_ok_of_mem_zipWith wavs0 sr0 (r0 :: rtl) _ r1 h1
  | error e0 =>
    refine ⟨_, executeBatch_err r0 rtl e0 hpending hrb, ?_, ?_⟩
    · intro e he r1 h1
      have he0 : e0 = e := by simpa using he
      subst he0
      exact slot_error_of_mem_map e0 (r0 :: rtl) r1 h1
    · intro wavs sr hok
      simp at hok

/-- C6: in a drain pass over the swapped-out queue, every bucket is executed
independently: the pass completes for all buckets (a failed bucket never
blocks the rest), each bucket's result is exactly `_execute_batch` of that
bucket alone, and within a bucket whose blocking call raises `e` every merged
request is resolved with that same `e`, while any bucket whose blocking call
succeeds has all its requests resolved with a success outcome. -/
theorem drainPass_failure_isolation {κ τ ω ε : Type} :
    ∀ (buckets : List (κ × List (Request τ ω ε))),
      (∀ b ∈ buckets, b.2 ≠ []) →
      (∀ b ∈ buckets, ∀ r ∈ b.2, r.slot = none) →
      ∃ buckets1 calls, drainPass buckets = some (buckets1, calls) ∧
        buckets1.length = buckets.length ∧
        ∀ i, i < buckets.length →
          ∃ key reqs out, buckets[i]? = some (key, reqs) ∧
            executeBatch reqs = some out ∧ buckets1[i]? = some (key, out.1) ∧
            (∀ q0 qtl e, reqs = q0 :: qtl →
              q0.runBatch ((reqs.map Request.texts).flatten) = Except.error e →
              ∀ r1 ∈ out.1, r1.slot = some (Except.error e)) ∧
            (∀ q0 qtl wavs sr, reqs = q0 :: qtl →
              q0.runBatch ((reqs.map Request.texts).flatten) =
                Except.ok (wavs, sr) →
              ∀ r1 ∈ out.1, ∃ res, r1.slot = some (Except.ok res)) := by
  intro buckets
  induction buckets with
  | nil =>
    intro _ _
    exact ⟨[], [], rfl, rfl, by intro i hi; simp at hi⟩
  | cons b btl ih =>
    intro hne hpending
    obtain ⟨key, reqs⟩ := b
    have hreqs : reqs ≠ [] := hne (key, reqs) (by simp)
    cases hq : reqs with
    | nil => exact absurd hq hreqs
    | cons r0 rtl =>
      subst hq
      obtain ⟨out, hout, herr, hok⟩ := executeBatch_outcomes r0 rtl
        (fun r hr => hpending (key, r0 :: rtl) (by simp) r hr)
      obtain ⟨btl1, calls1, hrun, hlen, hidx⟩ := ih
        (fun b2 h2 => hne b2 (List.mem_cons_of_mem _ h2))
        (fun b2 h2 => hpending b2 (List.mem_cons_of_mem _ h2))
      obtain ⟨out1, out2, out3⟩ := out
      refine ⟨(key, out1) :: btl1, out2 ++ calls1, ?_, by simp [hlen], ?_⟩
      · simp only [drainPass, hout, hrun]
      · intro i hi
        cases i with
        | zero =>
          refine ⟨key, r0 :: rtl, (out1, out2, out3), by simp, hout, by simp,
            ?_, ?_⟩
          · intro q0 qtl e heq he r1 h1
            injection heq with h01 h02
            subst h01
            subst h02
            exact herr e he r1 h1
          · intro q0 qtl wavs sr heq hkk r1 h1
            injection heq with h01 h02
            subst h01
            subst h02
            exact hok wavs sr hkk r1 h1
        | succ j =>
          have hj : j < btl.length := by simpa using hi
          obtain ⟨key2, reqs2, outj, hb, hex, hb1, he1, he2⟩ := hidx j hj
          exact ⟨key2, reqs2, outj, by simpa using hb, hex, by simpa using hb1,
            he1, he2⟩

/-- Concrete requests used in the batcher witnesses: two compatible callers
whose blocking function echoes its input with sample rate 24000, and one
whose blocking function raises. -/
def wreqA : Request String String Nat :=
  { texts := ["hi"], runBatch := fun ts => Except.ok (ts, 24000), slot := none }

def wreqB : Request String String Nat :=
  { texts := ["there", "you"], runBatch := fun ts => Except.ok (ts, 24000),
    slot := none }

def wreqC : Request String String Nat :=
  { texts := ["boom"], runBatch := fun _ => Except.error 3, slot := none }

/-- Witness for `executeBatch_single_call` on the spec's concrete scenario:
item lists `["hi"]` and `["there", "you"]`. -/
theorem executeBatch_single_call_witness :
    (∀ r ∈ wreqA :: [wreqB], r.slot = none) ∧
    (∃ upd counts,
      executeBatch (wreqA :: [wreqB]) =
        some (upd, [((wreqA :: [wreqB]).map Request.texts).flatten], counts) ∧
      (((wreqA :: [wreqB]).map Request.texts).flatten).length =
        ((wreqA :: [wreqB]).map textCount).sum ∧
      ∀ wavs sr,
        wreqA.runBatch (((wreqA :: [wreqB]).map Request.texts).flatten) =
          Except.ok (wavs, sr) →
        ∀ i, i < (wreqA :: [wreqB]).length →
          ∃ r r1, (wreqA :: [wreqB])[i]? = some r ∧ upd[i]? = some r1 ∧
            r1.slot = some (Except.ok
              (pySlice wavs (startOffset (wreqA :: [wreqB]) i)
                (startOffset (wreqA :: [wreqB]) i + textCount r), sr))) := by
  have hp : ∀ r ∈ wreqA :: [wreqB], r.slot = none := by
    intro r hr
    rcases List.mem_cons.mp hr with rfl | hr
    · rfl
    rcases List.mem_cons.mp hr with rfl | hr
    · rfl
    simp at hr
  exact ⟨hp, executeBatch_single_call wreqA [wreqB] hp⟩

/-- Witness for `slots_written_once` on a single-request bucket whose
blocking function raises. -/
theorem slots_written_once_witness :
    (∀ r ∈ wreqC :: ([] : List (Request String String Nat)), r.slot = none) ∧
    (∃ upd calls, executeBatch (wreqC :: ([] : List (Request String String Nat))) =
        some (upd, calls,
          List.replicate (wreqC :: ([] : List (Request String String Nat))).length 1) ∧
      upd.length = (wreqC :: ([] : List (Request String String Nat))).length ∧
      ∀ r1 ∈ upd, (r1.slot).isSome = true) := by
  have hp : ∀ r ∈ wreqC :: ([] : List (Request String String Nat)),
      r.slot = none := by
    intro r hr
    rcases List.mem_cons.mp hr with rfl | hr
    · rfl
    simp at hr
  exact ⟨hp, slots_written_once wreqC [] hp⟩

/-- Witness for `drainPass_failure_isolation` on two buckets, the first of
which fails while the second succeeds. -/
theorem drainPass_failure_isolation_witness :
    (∀ b ∈ [((0 : Nat), [wreqC]), (1, [wreqA])], b.2 ≠ []) ∧
    (∀ b ∈ [((0 : Nat), [wreqC]), (1, [wreqA])], ∀ r ∈ b.2, r.slot = none) ∧
    (∃ buckets1 calls,
      drainPass [((0 : Nat), [wreqC]), (1, [wreqA])] = some (buckets1, calls) ∧
      buckets1.length = [((0 : Nat), [wreqC]), (1, [wreqA])].length ∧
      ∀ i, i < [((0 : Nat), [wreqC]), (1, [wreqA])].length →
        ∃ key reqs out, [((0 : Nat), [wreqC]), (1, [wreqA])][i]? = some (key, reqs) ∧
          executeBatch reqs = some out ∧ buckets1[i]? = some (key, out.1) ∧
          (∀ q0 qtl e, reqs = q0 :: qtl →
            q0.runBatch ((reqs.map Request.texts).flatten) = Except.error e →
            ∀ r1 ∈ out.1, r1.slot = some (Except.error e)) ∧
          (∀ q0 qtl wavs sr, reqs = q0 :: qtl →
            q0.runBatch ((reqs.map Request.texts).flatten) =
              Except.ok (wavs, sr) →
            ∀ r1 ∈ out.1, ∃ res, r1.slot = some (Except.ok res))) := by
  have hne : ∀ b ∈ [((0 : Nat), [wreqC]), (1, [wreqA])], b.2 ≠ [] := by
    intro b hb
    rcases List.mem_cons.mp hb with rfl | hb
    · simp
    rcases List.mem_cons.mp hb with rfl | hb
    · simp
    simp at hb
  have hp : ∀ b ∈ [((0 : Nat), [wreqC]), (1, [wreqA])], ∀ r ∈ b.2,
      r.slot = none := by
    intro b hb r hr
    rcases List.mem_cons.mp hb with rfl | hb
    · rcases List.mem_cons.mp hr with rfl | hr
      · rfl
      simp at hr
    rcases List.mem_cons.mp hb with rfl | hb
    · rcases List.mem_cons.mp hr with rfl | hr
      · rfl
      simp at hr
    simp at hb
  exact ⟨hne, hp,
    drainPass_failure_isolation [((0 : Nat), [wreqC]), (1, [wreqA])] hne hp⟩

end Batcher

namespace AuthTok

/-- `TOKEN_PREFIX = "sk-ct-v1-"` as a character list. -/
def TOKEN_PREFIX_DATA : List Char := "sk-ct-v1-".data

/-- base64 value of a character after `urlsafe_b64decode`'s translation
(`-` to `+`, `_` to `/`) followed by the standard-alphabet table. -/
def b64val (c : Char) : Option Nat :=
  if 'A' ≤ c ∧ c ≤ 'Z' then some (c.toNat - 65)
  else if 'a' ≤ c ∧ c ≤ 'z' then some (c.toNat - 97 + 26)
  else if '0' ≤ c ∧ c ≤ '9' then some (c.toNat - 48 + 52)
  else if c = '+' ∨ c = '-' then some 62
  else if c = '/' ∨ c = '_' then some 63
  else none

/-- `binascii.a2b_base64` in non-strict mode (the `base64.b64decode`
default): invalid characters are skipped, `=` ends the quad once at least
two data characters are pending and enough pads accumulated, a leftover
quad position at end of input is an error (`Incorrect padding` /
`invalid length`), modelled as `none`. -/
def a2b : List Char → Nat → Nat → Nat → List Nat → Option (List Nat)
  | [], quadPos, _, _, out => if quadPos = 0 then some out else none
  | c :: cs, quadPos, leftchar, pads, out =>
    if c = '=' then
      if 2 ≤ quadPos then
        if 4 ≤ quadPos + (pads + 1) then some out
        else a2b cs quadPos leftchar (pads + 1) out
      else a2b cs quadPos leftchar pads out
    else
      match b64val c with
      | none => a2b cs quadPos leftchar pads out
      | some d =>
        match quadPos with
        | 0 => a2b cs 1 d 0 out
        | 1 => a2b cs 2 (d % 16) 0 (out ++ [leftchar * 4 + d / 16])
        | 2 => a2b cs 3 (d % 4) 0 (out ++ [leftchar * 16 + d / 4])
        | _ => a2b cs 0 0 0 (out ++ [leftchar * 64 + d])

/-- `base64.urlsafe_b64decode` on a `str`: the implicit
`s.encode('ascii')` raises on non-ASCII input (caught by the caller as a
`ValueError`), then the translated `a2b_base64` runs. -/
def urlsafe_b64decode (cs : List Char) : Option (List Nat) :=
  if cs.all (fun c => c.toNat < 128) then a2b cs 0 0 0 [] else none

/-- The urlsafe base64 alphabet (`A`-`Z`, `a`-`z`, `0`-`9`, `-`, `_`). -/
def b64alpha (n : Nat) : Char :=
  if n < 26 then Char.ofNat (65 + n)
  else if n < 52 then Char.ofNat (97 + (n - 26))
  else if n < 62 then Char.ofNat (48 + (n - 52))
  else if n = 62 then '-'
  else '_'

/-- `base64.urlsafe_b64encode` over bytes, as characters. -/
def urlsafe_b64encode : List Nat → List Char
  | [] => []
  | [b0] => [b64alpha (b0 / 4), b64alpha (b0 % 4 * 16), '=', '=']
  | [b0, b1] => [b64alpha (b0 / 4), b64alpha (b0 % 4 * 16 + b1 / 16),
      b64alpha (b1 % 16 * 4), '=']
  | b0 :: b1 :: b2 :: rest =>
      b64alpha (b0 / 4) :: b64alpha (b0 % 4 * 16 + b1 / 16) ::
        b64alpha (b1 % 16 * 4 + b2 / 64) :: b64alpha (b2 % 64) ::
        urlsafe_b64encode rest

/-- UTF-8 encoding of one character (`str.encode()`). -/
def utf8encodeChar (c : Char) : List Nat :=
  let n := c.toNat
  if n < 128 then [n]
  else if n < 2048 then [192 + n / 64, 128 + n % 64]
  else if n < 65536 then [224 + n / 4096, 128 + n / 64 % 64, 128 + n % 64]
  else [240 + n / 262144, 128 + n / 4096 % 64, 128 + n / 64 % 64, 128 + n % 64]

/-- UTF-8 encoding of a string. -/
def utf8encode (cs : List Char) : List Nat := (cs.map utf8encodeChar).flatten

/-- One step of strict UTF-8 decoding (`bytes.decode()`): decode the code
point starting at the head byte, rejecting stray continuation bytes,
overlong forms, surrogates and values above U+10FFFF; return the code point
and the remaining bytes. -/
def utf8once : List Nat → Option (Nat × List Nat)
  | [] => none
  | b :: rest =>
    if b < 128 then some (b, rest)
    else if 194 ≤ b ∧ b ≤ 223 then
      match rest with
      | b1 :: rest1 =>
        if 128 ≤ b1 ∧ b1 ≤ 191 then
          some ((b - 192) * 64 + (b1 - 128), rest1)
        else none
      | [] => none
    else if 224 ≤ b ∧ b ≤ 239 then
      match rest with
      | b1 :: b2 :: rest2 =>
        if (if b = 224 then 160 ≤ b1 ∧ b1 ≤ 191
            else if b = 237 then 128 ≤ b1 ∧ b1 ≤ 159
            else 128 ≤ b1 ∧ b1 ≤ 191) ∧ 128 ≤ b2 ∧ b2 ≤ 191 then
          some ((b - 224) * 4096 + (b1 - 128) * 64 + (b2 - 128), rest2)
        else none
      | _ => none
    else if 240 ≤ b ∧ b ≤ 244 then
      match rest with
      | b1 :: b2 :: b3 :: rest3 =>
        if (if b = 240 then 144 ≤ b1 ∧ b1 ≤ 191
            else if b = 244 then 128 ≤ b1 ∧ b1 ≤ 143
            else 128 ≤ b1 ∧ b1 ≤ 191) ∧ 128 ≤ b2 ∧ b2 ≤ 191 ∧
            128 ≤ b3 ∧ b3 ≤ 191 then
          some ((b - 240) * 262144 + (b1 - 128) * 4096 +
            (b2 - 128) * 64 + (b3 - 128), rest3)
        else none
      | _ => none
    else none

/-- The decode loop, with a step-count bound (each step consumes at least
one byte, so `l.length` steps always suffice). -/
def utf8decodeFuel : Nat → List Nat → Option (List Char)
  | _, [] => some []
  | 0, _ :: _ => none
  | fuel + 1, b :: rest =>
    match utf8once (b :: rest) with
    | some (n, rest2) =>
      match utf8decodeFuel fuel rest2 with
      | some cs => some (Char.ofNat n :: cs)
      | none => none
    | none => none

/-- Strict UTF-8 decoding of a byte string (`bytes.decode()`). -/
def utf8decode (l : List Nat) : Option (List Char) :=
  utf8decodeFuel l.length l

/-- `decoded.split(":", 1)` when it yields two parts; `none` when the
separator is absent (so the two-name unpacking raises `ValueError`). -/
def splitOnceColon : List Char → Option (List Char × List Char)
  | [] => none
  | c :: rest =>
    if c = ':' then some ([], rest)
    else
      match splitOnceColon rest with
      | some (a, b) => some (c :: a, b)
      | none => none

/-- `str.replace(pat, "")`: remove every non-overlapping occurrence of
`pat`, scanning left to right. -/
def removeAll (pat : List Char) : List Char → List Char
  | [] => []
  | c :: rest =>
    if h : pat ≠ [] ∧ pat.isPrefixOf (c :: rest) then
      removeAll pat (List.drop pat.length (c :: rest))
    else c :: removeAll pat rest
termination_by l => l.length
decreasing_by
  · have hp : 0 < pat.length := List.length_pos.mpr h.1
    simp only [List.length_drop, List.length_cons]
    omega
  · simp only [List.length_cons]
    omega

/-- The brace characters stripped by `hex.strip('{}')`. -/
def isBrace (c : Char) : Bool := c = Char.ofNat 123 ∨ c = Char.ofNat 125

/-- `str.strip(chars)`: drop the matching characters from both ends. -/
def pyStrip (p : Char → Bool) (l : List Char) : List Char :=
  ((l.dropWhile p).reverse.dropWhile p).reverse

/-- The ASCII whitespace stripped by `int(s, 16)`. -/
def isPySpace (c : Char) : Bool :=
  c = ' ' ∨ c = Char.ofNat 9 ∨ c = Char.ofNat 10 ∨ c = Char.ofNat 13 ∨
    c = Char.ofNat 11 ∨ c = Char.ofNat 12

/-- Hexadecimal digit value (`int(_, 16)` accepts both cases). -/
def hexVal (c : Char) : Option Nat :=
  if '0' ≤ c ∧ c ≤ '9' then some (c.toNat - 48)
  else if 'a' ≤ c ∧ c ≤ 'f' then some (c.toNat - 87)
  else if 'A' ≤ c ∧ c ≤ 'F' then some (c.toNat - 55)
  else none

/-- Digit run of `int(s, 16)` after the first digit: single underscores are
allowed only between digits. -/
def hexDigitsVal : List Char → Nat → Option Nat
  | [], acc => some acc
  | c :: rest, acc =>
    if c = '_' then
      match rest with
      | c2 :: rest2 =>
        match hexVal c2 with
        | some d => hexDigitsVal rest2 (acc * 16 + d)
        | none => none
      | [] => none
    else
      match hexVal c with
      | some d => hexDigitsVal rest (acc * 16 + d)
      | none => none

/-- Magnitude part of `int(s, 16)`: at least one digit, starting with a
digit. -/
def pyIntHexMag (l : List Char) : Option Nat :=
  match l with
  | [] => none
  | c :: rest =>
    match hexVal c with
    | some d => hexDigitsVal rest d
    | none => none

/-- Strip an optional `0x` / `0X` base marker (and one underscore right
after it), as `int(s, 16)` allows. -/
def stripHexBase (l : List Char) : List Char :=
  match l with
  | '0' :: c :: rest =>
    if c = 'x' ∨ c = 'X' then
      match rest with
      | '_' :: rest2 => rest2
      | _ => rest
    else l
  | _ => l

/-- `int(s, 16)`: surrounding whitespace, optional sign, optional base
marker, then underscore-separated hex digits. -/
def pyIntHex (l : List Char) : Option Int :=
  match pyStrip isPySpace l with
  | '+' :: r => (pyIntHexMag (stripHexBase r)).map (fun n => (n : Int))
  | '-' :: r => (pyIntHexMag (stripHexBase r)).map (fun n => -(n : Int))
  | r => (pyIntHexMag (stripHexBase r)).map (fun n => (n : Int))

def URN_PAT : List Char := "urn:".data

def UUID_PAT : List Char := "uuid:".data

/-- `uuid.UUID(hex=s)`: drop `urn:` and `uuid:`, strip braces, drop
hyphens, require exactly 32 remaining characters, parse as a base-16 int
and require `0 <= value < 2 ** 128`. -/
def pyUUIDparse (l : List Char) : Option Nat :=
  let h4 := removeAll ['-'] (pyStrip isBrace (removeAll UUID_PAT (removeAll URN_PAT l)))
  if h4.length = 32 then
    match pyIntHex h4 with
    | some n => if 0 ≤ n ∧ n < (2 : Int) ^ 128 then some n.toNat else none
    | none => none
  else none

/-- Lowercase hex digit. -/
def toHexDigit (n : Nat) : Char :=
  if n < 10 then Char.ofNat (48 + n) else Char.ofNat (87 + n)

/-- `"%0*x"`-style fixed-width lowercase hex rendering. -/
def natToHexAux : Nat → Nat → List Char
  | 0, _ => []
  | w + 1, n => natToHexAux w (n / 16) ++ [toHexDigit (n % 16)]

/-- `str(uuid.UUID(int=n))`: 32 lowercase hex digits in 8-4-4-4-12 groups. -/
def uuidToString (n : Nat) : List Char :=
  let h := natToHexAux 32 n
  h.take 8 ++ '-' :: ((h.drop 8).take 4 ++ '-' :: ((h.drop 12).take 4 ++
    '-' :: ((h.drop 16).take 4 ++ '-' :: h.drop 20)))

/-- The persisted `AuthToken` row.  `id` is the UUID's 128-bit value;
times are abstract instants (`datetime` totally ordered). -/
structure AuthToken where
  id : Nat
  name : List Char
  secret_hash : List Char
  created_at : Nat
  last_used_at : Option Nat
  expires_at : Option Nat
  revoked : Bool
deriving DecidableEq, Repr

/-- `AuthToken.encode_token`: `TOKEN_PREFIX + base64url(f"{self.id}:{secret}")`. -/
def encode_token (t : AuthToken) (secret : List Char) : List Char :=
  TOKEN_PREFIX_DATA ++
    urlsafe_b64encode (utf8encode (uuidToString t.id ++ ':' :: secret))

/-- `AuthToken.decode_token`: check the fixed prefix, base64url-decode and
UTF-8-decode the payload, `split(":", 1)`, parse the id as a UUID; every
`ValueError`/`UnicodeDecodeError` on the way yields `None`.  The function
is pure — it takes no store. -/
def decode_token (token : List Char) : Option (Nat × List Char) :=
  if TOKEN_PREFIX_DATA.isPrefixOf token then
    match urlsafe_b64decode (token.drop TOKEN_PREFIX_DATA.length) with
    | some bytes =>
      match utf8decode bytes with
      | some decoded =>
        match splitOnceColon decoded with
        | some (idStr, secret) =>
          match pyUUIDparse idStr with
          | some tid => some (tid, secret)
          | none => none
        | none => none
      | none => none
    | none => none
  else none

/-- `AuthToken.is_expired` at instant `now` (`utcnow() > expires_at`). -/
def is_expired (t : AuthToken) (now : Nat) : Bool :=
  match t.expires_at with
  | none => false
  | some e => decide (e < now)

/-- `AuthToken.is_valid`: not revoked and not expired. -/
def is_valid (t : AuthToken) (now : Nat) : Bool :=
  !t.revoked && !is_expired t now

/-- `AuthToken.generate_secret` with the `os.urandom` output passed in:
`urlsafe_b64encode(random_bytes).rstrip(b'=')`. -/
def generate_secret (randomBytes : List Nat) : List Char :=
  ((urlsafe_b64encode randomBytes).reverse.dropWhile (fun c => c = '=')).reverse

/-- `create_auth_token`: generate a secret, hash it (the Argon2 hash is a
parameter of the model), persist a fresh record with the hash only, return
the record and the plaintext secret. -/
def create_auth_token (hashSecret : List Char → List Char) (name : List Char)
    (expires_at : Option Nat) (freshId : Nat) (randomBytes : List Nat)
    (now : Nat) : AuthToken × List Char :=
  let secret := generate_secret randomBytes
  ({ id := freshId
     name := name
     secret_hash := hashSecret secret
     created_at := now
     last_used_at := none
     expires_at := expires_at
     revoked := false }, secret)

/-- `verify_token` over a list-modelled token table (`select ... limit 1`
is `find?` on the id): decode, look up, reject unless `is_valid`, compare
the secret via the hash's verification routine (a parameter of the model),
then update `last_used_at` and return the record. -/
def verify_token (verifySecret : List Char → List Char → Bool)
    (db : List AuthToken) (tokenString : List Char) (now : Nat) :
    Option AuthToken :=
  match decode_token tokenString with
  | none => none
  | some (tid, secret) =>
    match db.find? (fun t => t.id = tid) with
    | none => none
    | some t =>
      if is_valid t now then
        if verifySecret secret t.secret_hash then
          some { t with last_used_at := some now }
        else none
      else none

end AuthTok

namespace AuthTok

theorem b64alpha_facts : ∀ n, n < 64 → b64val (b64alpha n) = some n ∧
    b64alpha n ≠ '=' ∧ (b64alpha n).toNat < 128 ∧ b64alpha n ≠ ':' := by
  decide

theorem a2b_enc : ∀ (bytes : List Nat), (∀ b ∈ bytes, b < 256) →
    ∀ out, a2b (urlsafe_b64encode bytes) 0 0 0 out = some (out ++ bytes) := by
  intro bytes
  induction bytes using urlsafe_b64encode.induct with
  | case1 => intro _ out; simp [urlsafe_b64encode, a2b]
  | case2 b0 =>
    intro h out
    have h0 : b0 < 256 := h b0 (by simp)
    obtain ⟨hv0, hne0, _, _⟩ := b64alpha_facts (b0 / 4) (by omega)
    obtain ⟨hv1, hne1, _, _⟩ := b64alpha_facts (b0 % 4 * 16) (by omega)
    have he : b0 / 4 * 4 + b0 % 4 * 16 / 16 = b0 := by omega
    simp [urlsafe_b64encode, a2b, hne0, hv0, hne1, hv1, he]
    omega
  | case3 b0 b1 =>
    intro h out
    have h0 : b0 < 256 := h b0 (by simp)
    have h1 : b1 < 256 := h b1 (by simp)
    obtain ⟨hv0, hne0, _, _⟩ := b64alpha_facts (b0 / 4) (by omega)
    obtain ⟨hv1, hne1, _, _⟩ := b64alpha_facts (b0 % 4 * 16 + b1 / 16) (by omega)
    obtain ⟨hv2, hne2, _, _⟩ := b64alpha_facts (b1 % 16 * 4) (by omega)
    have he0 : b0 / 4 * 4 + (b0 % 4 * 16 + b1 / 16) / 16 = b0 := by omega
    have he1 : (b0 % 4 * 16 + b1 / 16) % 16 * 16 + b1 % 16 * 4 / 4 = b1 := by
      omega
    simp [urlsafe_b64encode, a2b, hne0, hv0, hne1, hv1, hne2, hv2, he0, he1]
    omega
  | case4 b0 b1 b2 rest ih =>
    intro h out
    have h0 : b0 < 256 := h b0 (by simp)
    have h1 : b1 < 256 := h b1 (by simp)
    have h2 : b2 < 256 := h b2 (by simp)
    obtain ⟨hv0, hne0, _, _⟩ := b64alpha_facts (b0 / 4) (by omega)
    obtain ⟨hv1, hne1, _, _⟩ := b64alpha_facts (b0 % 4 * 16 + b1 / 16) (by omega)
    obtain ⟨hv2, hne2, _, _⟩ := b64alpha_facts (b1 % 16 * 4 + b2 / 64) (by omega)
    obtain ⟨hv3, hne3, _, _⟩ := b64alpha_facts (b2 % 64) (by omega)
    have he0 : b0 / 4 * 4 + (b0 % 4 * 16 + b1 / 16) / 16 = b0 := by omega
    have he1 : (b0 % 4 * 16 + b1 / 16) % 16 * 16 +
        (b1 % 16 * 4 + b2 / 64) / 4 = b1 := by omega
    have he2 : (b1 % 16 * 4 + b2 / 64) % 4 * 64 + b2 % 64 = b2 := by omega
    have ih2 := ih (fun b hb => h b (by simp [hb]))
    simp [urlsafe_b64encode, a2b, hne0, hv0, hne1, hv1, hne2, hv2, hne3, hv3,
      he0, he1, he2, ih2]

end AuthTok

namespace AuthTok

theorem eq61_facts : ('=' : Char).toNat < 128 ∧ ('=' : Char) ≠ ':' := by decide

theorem enc_chars : ∀ (bytes : List Nat), (∀ b ∈ bytes, b < 256) →
    ∀ c ∈ urlsafe_b64encode bytes, c.toNat < 128 ∧ c ≠ ':' := by
  intro bytes
  induction bytes using urlsafe_b64encode.induct with
  | case1 => intro _ c hc; simp [urlsafe_b64encode] at hc
  | case2 b0 =>
    intro h c hc
    have h0 : b0 < 256 := h b0 (by simp)
    obtain ⟨_, _, ha0, hb0⟩ := b64alpha_facts (b0 / 4) (by omega)
    obtain ⟨_, _, ha1, hb1⟩ := b64alpha_facts (b0 % 4 * 16) (by omega)
    simp only [urlsafe_b64encode, List.mem_cons, List.mem_singleton] at hc
    rcases hc with rfl | rfl | rfl | rfl | h2
    · exact ⟨ha0, hb0⟩
    · exact ⟨ha1, hb1⟩
    · exact eq61_facts
    · exact eq61_facts
    · simp at h2
  | case3 b0 b1 =>
    intro h c hc
    have h0 : b0 < 256 := h b0 (by simp)
    have h1 : b1 < 256 := h b1 (by simp)
    obtain ⟨_, _, ha0, hb0⟩ := b64alpha_facts (b0 / 4) (by omega)
    obtain ⟨_, _, ha1, hb1⟩ := b64alpha_facts (b0 % 4 * 16 + b1 / 16) (by omega)
    obtain ⟨_, _, ha2, hb2⟩ := b64alpha_facts (b1 % 16 * 4) (by omega)
    simp only [urlsafe_b64encode, List.mem_cons, List.mem_singleton] at hc
    rcases hc with rfl | rfl | rfl | rfl | h2
    · exact ⟨ha0, hb0⟩
    · exact ⟨ha1, hb1⟩
    · exact ⟨ha2, hb2⟩
    · exact eq61_facts
    · simp at h2
  | case4 b0 b1 b2 rest ih =>
    intro h c hc
    have h0 : b0 < 256 := h b0 (by simp)
    have h1 : b1 < 256 := h b1 (by simp)
    have h2 : b2 < 256 := h b2 (by simp)
    obtain ⟨_, _, ha0, hb0⟩ := b64alpha_facts (b0 / 4) (by omega)
    obtain ⟨_, _, ha1, hb1⟩ := b64alpha_facts (b0 % 4 * 16 + b1 / 16) (by omega)
    obtain ⟨_, _, ha2, hb2⟩ := b64alpha_facts (b1 % 16 * 4 + b2 / 64) (by omega)
    obtain ⟨_, _, ha3, hb3⟩ := b64alpha_facts (b2 % 64) (by omega)
    simp only [urlsafe_b64encode, List.mem_cons] at hc
    rcases hc with rfl | rfl | rfl | rfl | h3
    · exact ⟨ha0, hb0⟩
    · exact ⟨ha1, hb1⟩
    · exact ⟨ha2, hb2⟩
    · exact ⟨ha3, hb3⟩
    · exact ih (fun b hb => h b (by simp [hb])) c h3

theorem generate_secret_chars (rb : List Nat) (hrb : ∀ b ∈ rb, b < 256) :
    ∀ c ∈ generate_secret rb, c.toNat < 128 ∧ c ≠ ':' := by
  intro c hc
  have : c ∈ urlsafe_b64encode rb := by
    unfold generate_secret at hc
    rw [List.mem_reverse] at hc
    have := (List.dropWhile_sublist _ :
      ((urlsafe_b64encode rb).reverse.dropWhile (fun c => c = '=')).Sublist
        (urlsafe_b64encode rb).reverse).subset hc
    rwa [List.mem_reverse] at this
  exact enc_chars rb hrb c this

theorem utf8encode_ascii : ∀ (cs : List Char), (∀ c ∈ cs, c.toNat < 128) →
    utf8encode cs = cs.map Char.toNat := by
  intro cs h
  induction cs with
  | nil => rfl
  | cons c rest ih =>
    have hc : c.toNat < 128 := h c (by simp)
    have hrest := ih (fun c2 h2 => h c2 (List.mem_cons_of_mem c h2))
    simp only [utf8encode, List.map_cons, List.flatten_cons] at hrest ⊢
    rw [hrest, utf8encodeChar]
    simp [hc]

theorem utf8decodeFuel_ascii : ∀ (fuel : Nat) (cs : List Char),
    (∀ c ∈ cs, c.toNat < 128) → cs.length ≤ fuel →
    utf8decodeFuel fuel (cs.map Char.toNat) = some cs := by
  intro fuel
  induction fuel with
  | zero =>
    intro cs h hlen
    cases cs with
    | nil => rfl
    | cons c rest => simp at hlen
  | succ f ih =>
    intro cs h hlen
    cases cs with
    | nil => rfl
    | cons c rest =>
      have hc : c.toNat < 128 := h c (by simp)
      have honce : utf8once (c.toNat :: rest.map Char.toNat) =
          some (c.toNat, rest.map Char.toNat) := by
        simp [utf8once, hc]
      rw [List.map_cons, utf8decodeFuel]
      simp only [honce]
      rw [ih rest (fun c2 h2 => h c2 (List.mem_cons_of_mem c h2))
        (by simpa using hlen)]
      simp only [Char.ofNat_toNat]

theorem utf8decode_map_toNat (cs : List Char) (h : ∀ c ∈ cs, c.toNat < 128) :
    utf8decode (cs.map Char.toNat) = some cs := by
  unfold utf8decode
  exact utf8decodeFuel_ascii (cs.map Char.toNat).length cs h (by simp)

theorem splitOnceColon_append (pre suf : List Char) (h : ':' ∉ pre) :
    splitOnceColon (pre ++ ':' :: suf) = some (pre, suf) := by
  induction pre with
  | nil => simp [splitOnceColon]
  | cons c rest ih =>
    simp only [List.mem_cons, not_or] at h
    have hc : ¬ (c = ':') := fun hh => h.1 hh.symm
    simp only [List.cons_append, splitOnceColon, hc, if_false]
    rw [show rest.append (':' :: suf) = rest ++ ':' :: suf from rfl, ih h.2]

theorem splitOnceColon_eq_none_iff (l : List Char) :
    splitOnceColon l = none ↔ ':' ∉ l := by
  induction l with
  | nil => simp [splitOnceColon]
  | cons c rest ih =>
    by_cases hc : c = ':'
    · subst hc
      constructor
      · intro hcontra
        rw [show splitOnceColon (':' :: rest) = some ([], rest) from by
          rw [splitOnceColon, if_pos rfl]] at hcontra
        cases hcontra
      · intro hmem
        exact absurd (List.mem_cons_self ':' rest) hmem
    · simp only [splitOnceColon, hc, if_false, List.mem_cons, not_or]
      constructor
      · intro h
        refine ⟨fun hh => hc hh.symm, ?_⟩
        rw [← ih]
        cases hs : splitOnceColon rest with
        | none => rfl
        | some p => rw [hs] at h; cases p; simp at h
      · intro ⟨_, h2⟩
        rw [← ih] at h2
        rw [h2]

end AuthTok

namespace AuthTok

theorem toHexDigit_facts : ∀ d, d < 16 → hexVal (toHexDigit d) = some d ∧
    toHexDigit d ≠ ':' ∧ toHexDigit d ≠ '-' ∧ toHexDigit d ≠ '_' ∧
    toHexDigit d ≠ '+' ∧ toHexDigit d ≠ 'x' ∧ toHexDigit d ≠ 'X' ∧
    (toHexDigit d).toNat < 128 ∧ isBrace (toHexDigit d) = false ∧
    isPySpace (toHexDigit d) = false := by
  decide

theorem mem_natToHexAux : ∀ (w n : Nat) (c : Char), c ∈ natToHexAux w n →
    ∃ d, d < 16 ∧ c = toHexDigit d := by
  intro w
  induction w with
  | zero => intro n c hc; simp [natToHexAux] at hc
  | succ v ih =>
    intro n c hc
    simp only [natToHexAux, List.mem_append, List.mem_singleton] at hc
    rcases hc with hc | rfl
    · exact ih (n / 16) c hc
    · exact ⟨n % 16, by omega, rfl⟩

theorem length_natToHexAux : ∀ (w n : Nat), (natToHexAux w n).length = w := by
  intro w
  induction w with
  | zero => intro n; rfl
  | succ v ih => intro n; simp [natToHexAux, ih]

theorem dropWhile_eq_self_of (p : Char → Bool) (l : List Char)
    (h : ∀ c ∈ l, p c = false) : l.dropWhile p = l := by
  cases l with
  | nil => rfl
  | cons c rest => simp [List.dropWhile_cons, h c (by simp)]

theorem pyStrip_eq_self (p : Char → Bool) (l : List Char)
    (h : ∀ c ∈ l, p c = false) : pyStrip p l = l := by
  unfold pyStrip
  rw [dropWhile_eq_self_of p l h,
    dropWhile_eq_self_of p l.reverse (fun c hc => h c (List.mem_reverse.mp hc)),
    List.reverse_reverse]

theorem removeAll_eq_self (pat : List Char) (c0 : Char) (hc : c0 ∈ pat) :
    ∀ l : List Char, c0 ∉ l → removeAll pat l = l := by
  intro l
  induction l with
  | nil => intro _; rw [removeAll]
  | cons c rest ih =>
    intro hl
    rw [removeAll]
    have hnp : ¬ (pat ≠ [] ∧ pat.isPrefixOf (c :: rest) = true) := by
      rintro ⟨-, hpre⟩
      exact hl ((List.isPrefixOf_iff_prefix.mp hpre).subset hc)
    rw [dif_neg hnp, ih (fun hm => hl (List.mem_cons_of_mem c hm))]

theorem removeAll_single (a : Char) : ∀ l : List Char,
    removeAll [a] l = l.filter (fun c => c ≠ a) := by
  intro l
  induction l with
  | nil => rw [removeAll]; rfl
  | cons c rest ih =>
    rw [removeAll]
    by_cases hca : c = a
    · subst hca
      rw [dif_pos ⟨by simp, by simp [List.isPrefixOf]⟩]
      simp only [List.length_cons, List.length_nil, List.drop_succ_cons,
        List.drop_zero]
      rw [ih]
      simp [List.filter_cons]
    · have hnp : ¬ (([a] : List Char) ≠ [] ∧
          ([a] : List Char).isPrefixOf (c :: rest) = true) := by
        rintro ⟨-, hpre⟩
        obtain ⟨t, ht⟩ := List.isPrefixOf_iff_prefix.mp hpre
        simp only [List.cons_append, List.nil_append, List.cons.injEq] at ht
        exact hca ht.1.symm
      rw [dif_neg hnp, ih]
      have : ¬ (c = a) := hca
      simp [List.filter_cons, this]

end AuthTok

namespace AuthTok

theorem hexDigitsVal_nil (acc : Nat) : hexDigitsVal [] acc = some acc := by
  rw [hexDigitsVal.eq_def]

theorem hexDigitsVal_cons (c : Char) (rest : List Char) (acc : Nat)
    (h : ¬ (c = '_')) :
    hexDigitsVal (c :: rest) acc =
      match hexVal c with
      | some d => hexDigitsVal rest (acc * 16 + d)
      | none => none := by
  conv_lhs => rw [hexDigitsVal.eq_def]
  simp [h]

theorem hexDigitsVal_append (l2 : List Char) :
    ∀ (l1 : List Char) (acc m : Nat), (∀ c ∈ l1, ¬ (c = '_')) →
      hexDigitsVal l1 acc = some m →
      hexDigitsVal (l1 ++ l2) acc = hexDigitsVal l2 m := by
  intro l1
  induction l1 with
  | nil =>
    intro acc m _ hsome
    rw [hexDigitsVal_nil] at hsome
    obtain rfl : acc = m := by simpa using hsome
    rfl
  | cons c rest ih =>
    intro acc m h hsome
    have hcu : ¬ (c = '_') := h c (by simp)
    rw [hexDigitsVal_cons c rest acc hcu] at hsome
    rw [List.cons_append, hexDigitsVal_cons c (rest ++ l2) acc hcu]
    cases hv : hexVal c with
    | none => simp [hv] at hsome
    | some d =>
      simp only [hv] at hsome ⊢
      exact ih (acc * 16 + d) m (fun c2 h2 => h c2 (List.mem_cons_of_mem c h2))
        hsome

theorem natToHexAux_parse : ∀ (w n acc : Nat), n < 16 ^ w →
    hexDigitsVal (natToHexAux w n) acc = some (acc * 16 ^ w + n) := by
  intro w
  induction w with
  | zero =>
    intro n acc hn
    have hn0 : n = 0 := by simpa using hn
    subst hn0
    simp [natToHexAux, hexDigitsVal]
  | succ v ih =>
    intro n acc hn
    have hmem : ∀ c ∈ natToHexAux v (n / 16), ¬ (c = '_') := by
      intro c hc
      obtain ⟨d, hd, rfl⟩ := mem_natToHexAux v (n / 16) c hc
      exact (toHexDigit_facts d hd).2.2.2.1
    have hdiv : n / 16 < 16 ^ v := by
      apply Nat.div_lt_of_lt_mul
      rw [pow_succ, Nat.mul_comm] at hn
      exact hn
    rw [natToHexAux, hexDigitsVal_append _ _ acc _ hmem (ih (n / 16) acc hdiv)]
    obtain ⟨hv, _⟩ := toHexDigit_facts (n % 16) (by omega)
    obtain ⟨_, _, _, hnu, _⟩ := toHexDigit_facts (n % 16) (by omega)
    have hone : hexDigitsVal [toHexDigit (n % 16)] (acc * 16 ^ v + n / 16) =
        some ((acc * 16 ^ v + n / 16) * 16 + n % 16) := by
      rw [hexDigitsVal_cons _ _ _ hnu]
      simp only [hv, hexDigitsVal_nil]
    rw [hone]
    have harith : (acc * 16 ^ v + n / 16) * 16 + n % 16 =
        acc * 16 ^ (v + 1) + n := by
      rw [pow_succ]
      calc (acc * 16 ^ v + n / 16) * 16 + n % 16
          = acc * (16 ^ v * 16) + (n / 16 * 16 + n % 16) := by ring
        _ = acc * (16 ^ v * 16) + n := by
            congr 1
            omega
    rw [harith]

theorem stripHexBase_eq_self (l : List Char)
    (h : ∀ c ∈ l, ¬ (c = 'x') ∧ ¬ (c = 'X')) : stripHexBase l = l := by
  unfold stripHexBase
  split
  · next c rest =>
    have hx := h c (by simp)
    rw [if_neg]
    rintro (h1 | h1)
    · exact hx.1 h1
    · exact hx.2 h1
  · rfl

theorem pyIntHexMag_eq_hexDigits (c : Char) (rest : List Char)
    (h : ¬ (c = '_')) : pyIntHexMag (c :: rest) = hexDigitsVal (c :: rest) 0 := by
  rw [pyIntHexMag, hexDigitsVal_cons c rest 0 h]
  cases hv : hexVal c with
  | none => simp [hv]
  | some d => simp [hv]

theorem pyIntHex_of_hex_chars (l : List Char) (hne : l ≠ [])
    (hcls : ∀ c ∈ l, ∃ d, d < 16 ∧ c = toHexDigit d) :
    pyIntHex l = (hexDigitsVal l 0).map (fun m => (m : Int)) := by
  have hsp : pyStrip isPySpace l = l := by
    apply pyStrip_eq_self
    intro c hc
    obtain ⟨d, hd, rfl⟩ := hcls c hc
    exact (toHexDigit_facts d hd).2.2.2.2.2.2.2.2.2
  have hxb : stripHexBase l = l := by
    apply stripHexBase_eq_self
    intro c hc
    obtain ⟨d, hd, rfl⟩ := hcls c hc
    exact ⟨(toHexDigit_facts d hd).2.2.2.2.2.1, (toHexDigit_facts d hd).2.2.2.2.2.2.1⟩
  have hmag : pyIntHexMag l = hexDigitsVal l 0 := by
    cases l with
    | nil => exact absurd rfl hne
    | cons c rest =>
      apply pyIntHexMag_eq_hexDigits
      obtain ⟨d, hd, hcd⟩ := hcls c (by simp)
      rw [hcd]
      exact (toHexDigit_facts d hd).2.2.2.1
  unfold pyIntHex
  rw [hsp]
  split
  · next r =>
    exfalso
    obtain ⟨d, hd, hcd⟩ := hcls '+' (by simp)
    exact (toHexDigit_facts d hd).2.2.2.2.1 hcd.symm
  · next r =>
    exfalso
    obtain ⟨d, hd, hcd⟩ := hcls '-' (by simp)
    exact (toHexDigit_facts d hd).2.2.1 hcd.symm
  · rw [hxb, hmag]

end AuthTok

namespace AuthTok

theorem mem_uuidToString (n : Nat) (c : Char) (hc : c ∈ uuidToString n) :
    c = '-' ∨ ∃ d, d < 16 ∧ c = toHexDigit d := by
  unfold uuidToString at hc
  simp only [List.mem_append, List.mem_cons] at hc
  rcases hc with h1 | rfl | h1 | rfl | h1 | rfl | h1 | rfl | h1
  · exact Or.inr (mem_natToHexAux 32 n c (List.mem_of_mem_take h1))
  · exact Or.inl rfl
  · exact Or.inr (mem_natToHexAux 32 n c
      (List.mem_of_mem_drop (List.mem_of_mem_take h1)))
  · exact Or.inl rfl
  · exact Or.inr (mem_natToHexAux 32 n c
      (List.mem_of_mem_drop (List.mem_of_mem_take h1)))
  · exact Or.inl rfl
  · exact Or.inr (mem_natToHexAux 32 n c
      (List.mem_of_mem_drop (List.mem_of_mem_take h1)))
  · exact Or.inl rfl
  · exact Or.inr (mem_natToHexAux 32 n c (List.mem_of_mem_drop h1))

theorem segments_recombine (l : List Char) :
    l.take 8 ++ ((l.drop 8).take 4 ++ ((l.drop 12).take 4 ++
      ((l.drop 16).take 4 ++ l.drop 20))) = l := by
  conv_rhs => rw [← List.take_append_drop 8 l]
  congr 1
  conv_rhs => rw [← List.take_append_drop 4 (l.drop 8)]
  congr 1
  rw [List.drop_drop]
  norm_num
  conv_rhs => rw [← List.take_append_drop 4 (l.drop 12)]
  congr 1
  rw [List.drop_drop]
  norm_num
  conv_rhs => rw [← List.take_append_drop 4 (l.drop 16)]
  congr 1
  rw [List.drop_drop]

theorem filter_uuidToString (n : Nat) :
    (uuidToString n).filter (fun c => c ≠ '-') = natToHexAux 32 n := by
  have hseg : ∀ (s : List Char), (∀ c ∈ s, c ∈ natToHexAux 32 n) →
      s.filter (fun c => c ≠ '-') = s := by
    intro s hs
    apply List.filter_eq_self.mpr
    intro c hc
    obtain ⟨d, hd, rfl⟩ := mem_natToHexAux 32 n c (hs c hc)
    simpa using (toHexDigit_facts d hd).2.2.1
  have h1 := hseg ((natToHexAux 32 n).take 8)
    (fun c hc => List.mem_of_mem_take hc)
  have h2 := hseg (((natToHexAux 32 n).drop 8).take 4)
    (fun c hc => List.mem_of_mem_drop (List.mem_of_mem_take hc))
  have h3 := hseg (((natToHexAux 32 n).drop 12).take 4)
    (fun c hc => List.mem_of_mem_drop (List.mem_of_mem_take hc))
  have h4 := hseg (((natToHexAux 32 n).drop 16).take 4)
    (fun c hc => List.mem_of_mem_drop (List.mem_of_mem_take hc))
  have h5 := hseg ((natToHexAux 32 n).drop 20)
    (fun c hc => List.mem_of_mem_drop hc)
  unfold uuidToString
  simp only [List.filter_append, List.filter_cons]
  rw [h1, h2, h3, h4, h5]
  simp only [show (decide (¬ ('-' = '-'))) = false from by decide, Bool.false_eq_true,
    if_false]
  exact segments_recombine (natToHexAux 32 n)

theorem pyUUIDparse_uuidToString (n : Nat) (hn : n < 2 ^ 128) :
    pyUUIDparse (uuidToString n) = some n := by
  have hnc : ':' ∉ uuidToString n := by
    intro hc
    rcases mem_uuidToString n ':' hc with h1 | ⟨d, hd, h1⟩
    · exact absurd h1 (by decide)
    · exact (toHexDigit_facts d hd).2.1 h1.symm
  have hr1 : removeAll URN_PAT (uuidToString n) = uuidToString n :=
    removeAll_eq_self URN_PAT ':' (by decide) _ hnc
  have hr2 : removeAll UUID_PAT (uuidToString n) = uuidToString n :=
    removeAll_eq_self UUID_PAT ':' (by decide) _ hnc
  have hr3 : pyStrip isBrace (uuidToString n) = uuidToString n := by
    apply pyStrip_eq_self
    intro c hc
    rcases mem_uuidToString n c hc with rfl | ⟨d, hd, rfl⟩
    · decide
    · exact (toHexDigit_facts d hd).2.2.2.2.2.2.2.2.1
  have hr4 : removeAll ['-'] (uuidToString n) = natToHexAux 32 n := by
    rw [removeAll_single]
    exact filter_uuidToString n
  have hlen : (natToHexAux 32 n).length = 32 := length_natToHexAux 32 n
  have hne : natToHexAux 32 n ≠ [] := by
    intro h0
    rw [h0] at hlen
    simp at hlen
  have h2128 : n < 16 ^ 32 := by
    have h16 : (16 : Nat) ^ 32 = 2 ^ 128 := by norm_num
    rw [h16]
    exact hn
  have hparse : pyIntHex (natToHexAux 32 n) = some ((n : Int)) := by
    rw [pyIntHex_of_hex_chars _ hne (mem_natToHexAux 32 n),
      natToHexAux_parse 32 n 0 h2128]
    simp
  unfold pyUUIDparse
  rw [hr1, hr2, hr3, hr4]
  rw [if_pos hlen, hparse]
  have hcond : (0 : Int) ≤ (n : Int) ∧ (n : Int) < (2 : Int) ^ 128 := by
    constructor
    · exact Int.natCast_nonneg n
    · exact_mod_cast hn
  show (if 0 ≤ ((n : Int)) ∧ ((n : Int)) < 2 ^ 128 then some (((n : Int))).toNat
      else none) = some n
  rw [if_pos hcond, Int.toNat_natCast]

end AuthTok

namespace AuthTok

theorem colon_not_mem_uuidToString (n : Nat) : ':' ∉ uuidToString n := by
  intro hc
  rcases mem_uuidToString n ':' hc with h1 | ⟨d, hd, h1⟩
  · exact absurd h1 (by decide)
  · exact (toHexDigit_facts d hd).2.1 h1.symm

theorem uuidToString_ascii (n : Nat) : ∀ c ∈ uuidToString n, c.toNat < 128 := by
  intro c hc
  rcases mem_uuidToString n c hc with rfl | ⟨d, hd, rfl⟩
  · decide
  · exact (toHexDigit_facts d hd).2.2.2.2.2.2.2.1

theorem decode_encode (t : AuthToken) (secret : List Char)
    (hid : t.id < 2 ^ 128)
    (hsec : ∀ c ∈ secret, c.toNat < 128) :
    decode_token (encode_token t secret) = some (t.id, secret) := by
  set cs : List Char := uuidToString t.id ++ ':' :: secret with hcs
  have hascii : ∀ c ∈ cs, c.toNat < 128 := by
    intro c hc
    rw [hcs] at hc
    rcases List.mem_append.mp hc with hc | hc
    · exact uuidToString_ascii t.id c hc
    · rcases List.mem_cons.mp hc with rfl | hc
      · decide
      · exact hsec c hc
  have hbytes : utf8encode cs = cs.map Char.toNat := utf8encode_ascii cs hascii
  have hb256 : ∀ b ∈ cs.map Char.toNat, b < 256 := by
    intro b hb
    obtain ⟨c, hc, rfl⟩ := List.mem_map.mp hb
    exact lt_trans (hascii c hc) (by norm_num)
  have hdec : urlsafe_b64decode (urlsafe_b64encode (cs.map Char.toNat)) =
      some (cs.map Char.toNat) := by
    unfold urlsafe_b64decode
    rw [if_pos, a2b_enc (cs.map Char.toNat) hb256 []]
    · simp
    · rw [List.all_eq_true]
      intro c hc
      simpa using (enc_chars (cs.map Char.toNat) hb256 c hc).1
  have hsplit : splitOnceColon cs = some (uuidToString t.id, secret) :=
    splitOnceColon_append (uuidToString t.id) secret
      (colon_not_mem_uuidToString t.id)
  unfold encode_token decode_token
  rw [← hcs, hbytes]
  rw [if_pos (List.isPrefixOf_iff_prefix.mpr (List.prefix_append _ _)),
    List.drop_left]
  simp only [hdec, utf8decode_map_toNat cs hascii, hsplit,
    pyUUIDparse_uuidToString t.id hid]

end AuthTok

namespace AuthTok

/-- C5 counterexample: the claim requires `decode` to return invalid
whenever the decoded payload does not contain exactly one separator, but
`decode_token` only requires at least one — `split(":", 1)` cuts at the
first colon.  The token encoding id 0 with secret `a:b` has a decoded
payload with two separators, yet `decode_token` accepts it and returns the
parsed pair. -/
theorem decode_multisep_counterexample :
    decode_token (encode_token
      { id := 0
        name := []
        secret_hash := []
        created_at := 0
        last_used_at := none
        expires_at := none
        revoked := false } ('a' :: ':' :: 'b' :: [])) =
      some (0, 'a' :: ':' :: 'b' :: []) ∧
    (uuidToString 0 ++ ':' :: 'a' :: ':' :: 'b' :: []).count ':' = 2 := by
  constructor
  · exact decode_encode
      { id := 0
        name := []
        secret_hash := []
        created_at := 0
        last_used_at := none
        expires_at := none
        revoked := false } ('a' :: ':' :: 'b' :: [])
      (by norm_num) (by decide)
  · decide

/-- C5: `decode_token` is a pure parse (it takes only the token string, no
store) and fails closed: it returns `none` when the string lacks the fixed
prefix, when the payload after the prefix is not valid base64url (including
the implicit ASCII check), when the decoded bytes are not valid UTF-8, when
the decoded payload contains no separator, or when the id part before the
first separator is not a valid UUID.  (With two or more separators it
splits at the first and may succeed.) -/
theorem decode_token_fails_closed (token : List Char) :
    (TOKEN_PREFIX_DATA.isPrefixOf token = false → decode_token token = none) ∧
    (urlsafe_b64decode (token.drop TOKEN_PREFIX_DATA.length) = none →
      decode_token token = none) ∧
    (∀ bytes,
      urlsafe_b64decode (token.drop TOKEN_PREFIX_DATA.length) = some bytes →
      utf8decode bytes = none → decode_token token = none) ∧
    (∀ bytes decoded,
      urlsafe_b64decode (token.drop TOKEN_PREFIX_DATA.length) = some bytes →
      utf8decode bytes = some decoded → ':' ∉ decoded →
      decode_token token = none) ∧
    (∀ bytes decoded idStr rest,
      urlsafe_b64decode (token.drop TOKEN_PREFIX_DATA.length) = some bytes →
      utf8decode bytes = some decoded →
      splitOnceColon decoded = some (idStr, rest) →
      pyUUIDparse idStr = none → decode_token token = none) := by
  refine ⟨?_, ?_, ?_, ?_, ?_⟩
  · intro h
    simp [decode_token, h]
  · intro h
    simp [decode_token, h]
  · intro bytes hb hu
    simp [decode_token, hb, hu]
  · intro bytes decoded hb hu hnc
    have hs : splitOnceColon decoded = none :=
      (splitOnceColon_eq_none_iff decoded).mpr hnc
    simp [decode_token, hb, hu, hs]
  · intro bytes decoded idStr rest hb hu hs hp
    simp [decode_token, hb, hu, hs, hp]

theorem decode_token_fails_closed_witness :
    TOKEN_PREFIX_DATA.isPrefixOf ('x' :: 'x' :: []) = false ∧
    decode_token ('x' :: 'x' :: []) = none :=
  ⟨by decide, (decode_token_fails_closed ('x' :: 'x' :: [])).1 (by decide)⟩

end AuthTok

namespace AuthTok

/-- C8: `is_valid` holds iff the token is not revoked and either no
expiry is set or `now` is at most the expiry (`is_expired` is
`utcnow() > expires_at`); and `verify_token` returns invalid for a
revoked or past-expiry stored record even when the presented string
decodes to that record's id with any secret, the originally correct one
included. -/
theorem revoked_or_expired_rejected
    (verifySecret : List Char → List Char → Bool)
    (db : List AuthToken) (t : AuthToken) (now : Nat) :
    (is_valid t now = true ↔
      (t.revoked = false ∧
        (t.expires_at = none ∨ ∃ e, t.expires_at = some e ∧ now ≤ e))) ∧
    (∀ tokenString tid secret,
      decode_token tokenString = some (tid, secret) →
      db.find? (fun u => u.id = tid) = some t →
      (t.revoked = true ∨ ∃ e, t.expires_at = some e ∧ e < now) →
      verify_token verifySecret db tokenString now = none) := by
  have hvalid : is_valid t now = true ↔
      (t.revoked = false ∧
        (t.expires_at = none ∨ ∃ e, t.expires_at = some e ∧ now ≤ e)) := by
    unfold is_valid is_expired
    cases hE : t.expires_at with
    | none => simp [hE]
    | some e => simp [hE, Nat.not_lt]
  refine ⟨hvalid, ?_⟩
  intro tokenString tid secret hdec hfind hbad
  have hnv : is_valid t now = false := by
    cases hb : is_valid t now
    · rfl
    · exfalso
      obtain ⟨hrev, hexp⟩ := hvalid.mp hb
      rcases hbad with hbad | ⟨e, he, hlt⟩
      · rw [hrev] at hbad
        cases hbad
      · rcases hexp with hnone | ⟨e2, he2, hle⟩
        · rw [hnone] at he
          cases he
        · rw [he2] at he
          injection he with he
          omega
  simp [verify_token, hdec, hfind, hnv]

def wtok : AuthToken :=
  { id := 0
    name := []
    secret_hash := 'a' :: 'b' :: []
    created_at := 0
    last_used_at := none
    expires_at := none
    revoked := true }

theorem revoked_or_expired_rejected_witness :
    wtok.revoked = true ∧
    verify_token (fun s h => s == h) [wtok]
      (encode_token wtok ('a' :: 'b' :: [])) 0 = none :=
  ⟨rfl, (revoked_or_expired_rejected (fun s h => s == h) [wtok] wtok 0).2
    (encode_token wtok ('a' :: 'b' :: [])) 0 ('a' :: 'b' :: [])
    (decode_encode wtok ('a' :: 'b' :: []) (by decide) (by decide))
    (by decide) (Or.inl rfl)⟩

end AuthTok

namespace AuthTok

/-- C7: `create_auth_token` returns a record and a plaintext secret such
that the record stores only `hashSecret` of the secret — the persisted
record depends on the secret only through its hash, so the plaintext is
not recoverable from the record alone beyond what the one-way hash gives
— and `verify_token` applied to `encode_token` of that record with that
secret succeeds (for a verifier sound on its own hashes, at any instant
not past the expiry), returning a record with the issued id and name. -/
theorem issue_verify_roundtrip
    (hashSecret : List Char → List Char)
    (verifySecret : List Char → List Char → Bool)
    (name : List Char) (expiry : Option Nat) (freshId : Nat) (rb : List Nat)
    (now now2 : Nat)
    (hfresh : freshId < 2 ^ 128)
    (hrb : ∀ b ∈ rb, b < 256)
    (hverify : ∀ s, verifySecret s (hashSecret s) = true)
    (hexp : ∀ e, expiry = some e → now2 ≤ e) :
    (create_auth_token hashSecret name expiry freshId rb now).1.secret_hash =
      hashSecret (create_auth_token hashSecret name expiry freshId rb now).2 ∧
    (∀ rb2 : List Nat,
      hashSecret (generate_secret rb2) = hashSecret (generate_secret rb) →
      (create_auth_token hashSecret name expiry freshId rb2 now).1 =
        (create_auth_token hashSecret name expiry freshId rb now).1) ∧
    (∃ t2,
      verify_token verifySecret
        [(create_auth_token hashSecret name expiry freshId rb now).1]
        (encode_token
          (create_auth_token hashSecret name expiry freshId rb now).1
          (create_auth_token hashSecret name expiry freshId rb now).2) now2 =
        some t2 ∧ t2.id = freshId ∧ t2.name = name) := by
  have h1 : (create_auth_token hashSecret name expiry freshId rb now).1 =
      { id := freshId
        name := name
        secret_hash := hashSecret (generate_secret rb)
        created_at := now
        last_used_at := none
        expires_at := expiry
        revoked := false } := rfl
  refine ⟨rfl, ?_, ?_⟩
  · intro rb2 hh
    simp [create_auth_token, hh]
  · refine ⟨{ (create_auth_token hashSecret name expiry freshId rb now).1 with
      last_used_at := some now2 }, ?_, rfl, rfl⟩
    have hdec : decode_token
        (encode_token (create_auth_token hashSecret name expiry freshId rb now).1
          (create_auth_token hashSecret name expiry freshId rb now).2) =
        some (freshId, generate_secret rb) :=
      decode_encode _ _ hfresh
        (fun c hc => (generate_secret_chars rb hrb c hc).1)
    have hfind : List.find?
        (fun u => u.id = freshId)
        [(create_auth_token hashSecret name expiry freshId rb now).1] =
        some (create_auth_token hashSecret name expiry freshId rb now).1 :=
      List.find?_cons_of_pos _ (by simp [h1])
    have hvalid : is_valid
        (create_auth_token hashSecret name expiry freshId rb now).1 now2 =
        true := by
      rw [h1]
      cases hE : expiry with
      | none => simp [is_valid, is_expired, hE]
      | some e =>
        simp [is_valid, is_expired, hE, Nat.not_lt]
        exact hexp e hE
    have hsh : verifySecret (generate_secret rb)
        ((create_auth_token hashSecret name expiry freshId rb now).1.secret_hash) =
        true := hverify (generate_secret rb)
    simp [verify_token, hdec, hfind, hvalid, hsh]

theorem issue_verify_roundtrip_witness :
    ∃ t2, verify_token (fun s h => s == h)
        [(create_auth_token (fun s => s) [] none 0 ([0]) 0).1]
        (encode_token (create_auth_token (fun s => s) [] none 0 ([0]) 0).1
          (create_auth_token (fun s => s) [] none 0 ([0]) 0).2) 5 =
        some t2 ∧ t2.id = 0 ∧ t2.name = [] :=
  (issue_verify_roundtrip (fun s => s) (fun s h => s == h) [] none 0 ([0]) 0 5
    (by decide) (by decide) (fun s => by simp) (fun e h => nomatch h)).2.2

end AuthTok
